import Mathlib

/-!
Verification of the nbcli core: a shallow embedding of the request/response
pipeline of a NetBox command-line client (URL construction, pagination
following, dotted-path selection, key=value parameter parsing, token masking,
JSON and CSV output formatting), with theorems checking the natural-language
specification against the code.

JSON-shaped data is modelled by the tagged union `Value`.  Numbers are
modelled as integers (the source never computes with numeric payloads, and
floating point is out of scope).  Python dictionaries are modelled as
insertion-ordered association lists; Python dicts cannot hold duplicate
keys, which is captured by the `wfKeys` predicate where it matters.
-/

inductive Value where
  | null : Value
  | bool : Bool → Value
  | num : Int → Value
  | str : String → Value
  | arr : List Value → Value
  | obj : List (String × Value) → Value

mutual

/-- Size of a value, counting one step per parser call needed to read it
back; also the measure used for strong induction over `Value`. -/
def Value.size : Value → Nat
  | .null => 1
  | .bool _ => 1
  | .num _ => 1
  | .str _ => 1
  | .arr xs => 1 + sizeItems xs
  | .obj kvs => 1 + sizeMembers kvs

def sizeItems : List Value → Nat
  | [] => 0
  | x :: xs => 1 + x.size + sizeItems xs

def sizeMembers : List (String × Value) → Nat
  | [] => 0
  | e :: es => 1 + e.2.size + sizeMembers es

end

theorem Value.size_pos : ∀ v : Value, 1 ≤ v.size := by
  intro v
  cases v <;> simp [Value.size]

theorem size_le_of_mem_items {x : Value} : ∀ {xs : List Value}, x ∈ xs → x.size ≤ sizeItems xs := by
  intro xs
  induction xs with
  | nil => intro h; cases h
  | cons y ys ih =>
    intro h
    rcases List.mem_cons.mp h with h | h
    · subst h; simp [sizeItems]; omega
    · have := ih h; simp [sizeItems]; omega

theorem size_le_of_mem_members {e : String × Value} :
    ∀ {kvs : List (String × Value)}, e ∈ kvs → e.2.size ≤ sizeMembers kvs := by
  intro kvs
  induction kvs with
  | nil => intro h; cases h
  | cons f fs ih =>
    intro h
    rcases List.mem_cons.mp h with h | h
    · subst h; simp [sizeMembers]; omega
    · have := ih h; simp [sizeMembers]; omega

/-- Strong induction over `Value` through the nested lists. -/
theorem Value.strongInd (P : Value → Prop) (hnull : P .null)
    (hbool : ∀ b, P (.bool b)) (hnum : ∀ n, P (.num n)) (hstr : ∀ s, P (.str s))
    (harr : ∀ xs, (∀ x ∈ xs, P x) → P (.arr xs))
    (hobj : ∀ kvs, (∀ e ∈ kvs, P e.2) → P (.obj kvs)) : ∀ v, P v := by
  have main : ∀ n v, Value.size v ≤ n → P v := by
    intro n
    induction n with
    | zero => intro v hv; have := Value.size_pos v; omega
    | succ n ih =>
      intro v hv
      cases v with
      | null => exact hnull
      | bool b => exact hbool b
      | num m => exact hnum m
      | str s => exact hstr s
      | arr xs =>
        refine harr xs (fun x hx => ih x ?_)
        have h1 := size_le_of_mem_items hx
        simp [Value.size] at hv; omega
      | obj kvs =>
        refine hobj kvs (fun e he => ih e.2 ?_)
        have h1 := size_le_of_mem_members he
        simp [Value.size] at hv; omega
  exact fun v => main v.size v (Nat.le_refl _)

/-- Lookup in an object, returning the value at the first matching key
(Python dicts have unique keys). -/
def objGet (kvs : List (String × Value)) (key : String) : Option Value :=
  match kvs with
  | [] => none
  | (k, v) :: rest => if k = key then some v else objGet rest key

/-- Python truthiness of a JSON value. -/
def truthy : Value → Bool
  | .null => false
  | .bool b => b
  | .num n => n != 0
  | .str s => s != ""
  | .arr xs => !xs.isEmpty
  | .obj kvs => !kvs.isEmpty

/-! String helpers, working over the character lists of Lean strings. -/

/-- Whitespace characters recognized by this embedding of Python str.strip
(ASCII whitespace; Python also strips other Unicode space characters, which
no claim exercises). -/
def pyWs (c : Char) : Bool :=
  c = ' ' || c = '\t' || c = '\n' || c = '\r' || c = '\x0b' || c = '\x0c'

def dropTrail (p : Char → Bool) (cs : List Char) : List Char :=
  (cs.reverse.dropWhile p).reverse

/-- Embedding of Python str.strip(). -/
def pyStrip (s : String) : String :=
  String.mk (dropTrail pyWs (s.data.dropWhile pyWs))

/-- Embedding of Python str.lstrip("/"): drops every leading slash. -/
def lstripSlash (s : String) : String :=
  String.mk (s.data.dropWhile (fun c => c = '/'))

/-- Embedding of Python str.rstrip("/"): drops every trailing slash. -/
def rstripSlash (s : String) : String :=
  String.mk (dropTrail (fun c => c = '/') s.data)

def startsWithL : List Char → List Char → Bool
  | [], _ => true
  | _ :: _, [] => false
  | p :: ps, c :: cs => p = c && startsWithL ps cs

/-- Embedding of Python s.startswith(pat). -/
def pyStarts (pat s : String) : Bool := startsWithL pat.data s.data

/-- Python slicing s[n:]. -/
def dropN (n : Nat) (s : String) : String := String.mk (s.data.drop n)

/-! URL building and path-token normalization (src/src/nbcli/cli.py). -/

/-- Embedding of build_url: convert relative paths into NetBox API URLs. -/
def build_url (base_url path : String) : String :=
  if pyStarts "http://" path || pyStarts "https://" path then path
  else
    let base := rstripSlash base_url
    let cleaned := lstripSlash path
    if pyStarts "api/" cleaned then base ++ "/" ++ cleaned
    else base ++ "/api/" ++ cleaned

/-- Embedding of normalize_path: normalize path tokens for comparisons. -/
def normalize_path (path : String) : String :=
  let cleaned := lstripSlash (pyStrip path)
  let cleaned2 := if pyStarts "api/" cleaned then dropN 4 cleaned else cleaned
  rstripSlash cleaned2

/-- Embedding of is_status_path. -/
def is_status_path (path : String) : Bool := normalize_path path == "status"

/-- Embedding of is_cli_config_path. -/
def is_cli_config_path (path : String) : Bool := normalize_path path == "cli config"

/-- Embedding of mask_token.  The Python function returns None for a falsy
token (and load_config never lets an empty token through); otherwise a
masked string. -/
def mask_token (token : String) : Option String :=
  if token = "" then none
  else if token.data.length ≤ 4 then
    some (String.mk (List.replicate token.data.length '*'))
  else
    some (String.mk (List.replicate (token.data.length - 4) '*' ++
      token.data.drop (token.data.length - 4)))

/-! Query-parameter parsing (parse_kv_list). -/

inductive ParamVal where
  | single : String → ParamVal
  | multi : List String → ParamVal

abbrev Params := List (String × ParamVal)

/-- One step of parse_kv_list: merge one key=value pair into the params
dict; a repeated key accumulates into a list at its original position. -/
def addParam (params : Params) (key value : String) : Params :=
  match params with
  | [] => [(key, .single value)]
  | (k, v) :: rest =>
    if k = key then
      match v with
      | .single old => (k, .multi [old, value]) :: rest
      | .multi olds => (k, .multi (olds ++ [value])) :: rest
    else (k, v) :: addParam rest key value

/-- Split a character list around the first occurrence of sep; none when
sep does not occur (Python s.split(sep, 1)). -/
def splitAtChar (sep : Char) : List Char → Option (List Char × List Char)
  | [] => none
  | c :: cs =>
    if c = sep then some ([], cs)
    else
      match splitAtChar sep cs with
      | none => none
      | some (a, b) => some (c :: a, b)

def parse_kv_list_go (acc : Params) : List String → Except String Params
  | [] => .ok acc
  | item :: rest =>
    match splitAtChar '=' item.data with
    | none => .error item
    | some (k, v) => parse_kv_list_go (addParam acc (String.mk k) (String.mk v)) rest

/-- Embedding of parse_kv_list: parse repeated key=value flags into a dict.
An item without "=" is a usage error: the CLI prints a message naming the
item and exits with code 2, modelled as the error case. -/
def parse_kv_list (values : List String) : Except String Params :=
  parse_kv_list_go [] values

/-! Dotted-path selection (extract_path_value). -/

/-- Python s.split("."): split on every dot, keeping empty segments. -/
def splitDot : List Char → List (List Char)
  | [] => [[]]
  | c :: cs =>
    match splitDot cs with
    | [] => [[]]
    | seg :: segs => if c = '.' then [] :: seg :: segs else (c :: seg) :: segs

/-- Python part.isdigit(), restricted to ASCII digits (the source would
accept other Unicode digit characters, which no claim exercises). -/
def isDigits (cs : List Char) : Bool := !cs.isEmpty && cs.all Char.isDigit

def digitsToNat (cs : List Char) : Nat :=
  cs.foldl (fun a c => a * 10 + (c.toNat - 48)) 0

/-- The shared segment fold of the Path Selector: object nodes need the
segment as a present key, array nodes need an in-bounds all-digit index,
scalars fail; the failing segment is reported (Python raises KeyError). -/
def selGo : Value → List String → Except String Value
  | cur, [] => .ok cur
  | cur, part :: rest =>
    match cur with
    | .obj kvs =>
      match objGet kvs part with
      | none => .error part
      | some v => selGo v rest
    | .arr xs =>
      if isDigits part.data then
        match xs.get? (digitsToNat part.data) with
        | none => .error part
        | some v => selGo v rest
      else .error part
    | _ => .error part

/-- Embedding of extract_path_value: navigate dict/list structures via dot
notation; a missing key or bad index raises KeyError(part), modelled as the
error case carrying the failing segment. -/
def extract_path_value (payload : Value) (selector : Option String) : Except String Value :=
  match selector with
  | none => .ok payload
  | some s =>
    let t := pyStrip s
    let t2 := if pyStarts "." t then dropN 1 t else t
    if t2 = "" then .ok payload
    else selGo payload ((splitDot t2.data).map String.mk)

/-- The Path Selector exactly as claim C3 words it: identity on a null
selector or one empty after stripping an optional leading dot, otherwise
split on "." and fold left over the segments.  The claim does not mention
the whitespace trimming that the source performs first. -/
def select_claimed (payload : Value) (selector : Option String) : Except String Value :=
  match selector with
  | none => .ok payload
  | some s =>
    let t := if pyStarts "." s then dropN 1 s else s
    if t = "" then .ok payload
    else selGo payload ((splitDot t.data).map String.mk)

/-! Transport and pagination (request_with_errors, request_all,
request_all_safe). -/

structure HttpResp where
  ok : Bool
  status : Nat
  reason : String
  text : String
  body : Except String Value

inductive TranspOutcome where
  | timeout : TranspOutcome
  | connectionError : TranspOutcome
  | requestError : String → TranspOutcome
  | success : HttpResp → TranspOutcome

/-- A transport oracle: the outcome of requests.request for a given URL and
params.  The URL is a Value because the pagination loop feeds the payload
field "next" back in as the next URL. -/
abbrev Transport := Value → Option Params → TranspOutcome

/-- Embedding of request_with_errors: transport-level exceptions (timeout,
connection failure, any other RequestException) print a message and
terminate the process with exit code 3, modelled as the error case. -/
def request_with_errors (fetch : Transport) (url : Value) (params : Option Params) :
    Except Nat HttpResp :=
  match fetch url params with
  | .timeout => .error 3
  | .connectionError => .error 3
  | .requestError _ => .error 3
  | .success r => .ok r

/-- Outcome of a CLI-level operation: normal value, process exit with a
code, an unhandled Python exception, or fuel exhaustion of the loop. -/
inductive CliResult where
  | exit : Nat → CliResult
  | value : Value → CliResult
  | pyError : CliResult
  | diverge : CliResult

/-- Python list.extend iterates its argument: lists extend elementwise,
strings yield their one-character substrings, dicts yield their keys; other
values raise TypeError. -/
def extendItems : Value → Option (List Value)
  | .arr xs => some xs
  | .str s => some (s.data.map (fun c => Value.str (String.mk [c])))
  | .obj kvs => some (kvs.map (fun e => Value.str e.1))
  | _ => none

/-- The test `not isinstance(payload, dict) or "results" not in payload`,
returning the results entry when the payload is a dict containing one. -/
def resultsField : Value → Option Value
  | .obj kvs => objGet kvs "results"
  | _ => none

/-- payload.get("next"), defaulting to None. -/
def nextField : Value → Value
  | .obj kvs => (objGet kvs "next").getD .null
  | _ => .null

/-- The merged result set returned once the loop runs out of pages. -/
def finishCount (results : List Value) : CliResult :=
  .value (.obj [("count", .num results.length), ("results", .arr results)])

/-- The ErrorResult object {"error": text, "status": status}. -/
def errorResult (text : String) (status : Nat) : CliResult :=
  .value (.obj [("error", .str text), ("status", .num status)])

/-- Record one transport call (url, params) at the head of the trace. -/
def prependTrace (e : Value × Option Params) :
    CliResult × List (Value × Option Params) → CliResult × List (Value × Option Params)
  | (res, tr) => (res, e :: tr)

mutual

/-- Embedding of the request_all loop: follow NetBox pagination and merge a
result set.  Returns the result together with the trace of transport calls
(url, params) actually issued, in order.  The loop body is staged into one
function per step of the source's control flow. -/
def request_all_go (fetch : Transport) :
    Nat → Value → Option Params → List Value → CliResult × List (Value × Option Params)
  | 0, next_url, _, results =>
    if truthy next_url then (.diverge, []) else (finishCount results, [])
  | fuel + 1, next_url, first_params, results =>
    if truthy next_url then
      prependTrace (next_url, first_params)
        (request_all_resp fetch fuel results (request_with_errors fetch next_url first_params))
    else (finishCount results, [])
termination_by f next p res => (f, 0)

/-- Branch on resp: transport exit, non-2xx exit(1), or handle the body. -/
def request_all_resp (fetch : Transport) (fuel : Nat) (results : List Value) :
    Except Nat HttpResp → CliResult × List (Value × Option Params)
  | .error code => (.exit code, [])
  | .ok ⟨true, _, _, _, body⟩ => request_all_body fetch fuel results body
  | .ok ⟨false, _, _, _, _⟩ => (.exit 1, [])
termination_by e => (fuel, 4)

/-- resp.json() raising ValueError is an unhandled exception here. -/
def request_all_body (fetch : Transport) (fuel : Nat) (results : List Value) :
    Except String Value → CliResult × List (Value × Option Params)
  | .error _ => (.pyError, [])
  | .ok payload => request_all_results fetch fuel results payload (resultsField payload)
termination_by e => (fuel, 3)

/-- Non-list payloads are returned verbatim; otherwise extend with results. -/
def request_all_results (fetch : Transport) (fuel : Nat) (results : List Value)
    (payload : Value) : Option Value → CliResult × List (Value × Option Params)
  | none => (.value payload, [])
  | some rv => request_all_extend fetch fuel results payload (extendItems rv)
termination_by o => (fuel, 2)

/-- list.extend of a non-iterable raises; otherwise loop on the next link,
carrying no params. -/
def request_all_extend (fetch : Transport) (fuel : Nat) (results : List Value)
    (payload : Value) : Option (List Value) → CliResult × List (Value × Option Params)
  | none => (.pyError, [])
  | some items => request_all_go fetch fuel (nextField payload) none (results ++ items)
termination_by o => (fuel, 1)

end

/-- Embedding of request_all (fail-fast pagination). -/
def request_all (fetch : Transport) (fuel : Nat) (url : String) (params : Option Params) :
    CliResult × List (Value × Option Params) :=
  request_all_go fetch fuel (.str url) params []

mutual

/-- Embedding of the request_all_safe loop: fetch all pages; HTTP error
responses and non-JSON bodies are returned as an ErrorResult object instead
of exiting, but transport-level failures still go through
request_with_errors, which terminates the process with exit code 3. -/
def request_all_safe_go (fetch : Transport) : Nat → Value → List Value → CliResult
  | 0, next_url, results =>
    if truthy next_url then .diverge else finishCount results
  | fuel + 1, next_url, results =>
    if truthy next_url then
      request_all_safe_resp fetch fuel results (request_with_errors fetch next_url none)
    else finishCount results
termination_by f next res => (f, 0)

/-- Branch on resp: transport exit(3), non-2xx captured as ErrorResult, or
handle the body. -/
def request_all_safe_resp (fetch : Transport) (fuel : Nat) (results : List Value) :
    Except Nat HttpResp → CliResult
  | .error code => .exit code
  | .ok ⟨true, status, _, text, body⟩ => request_all_safe_body fetch fuel results status text body
  | .ok ⟨false, status, _, text, _⟩ => errorResult text status
termination_by e => (fuel, 4)

/-- A body that fails to parse as JSON is captured as an ErrorResult. -/
def request_all_safe_body (fetch : Transport) (fuel : Nat) (results : List Value)
    (status : Nat) (text : String) : Except String Value → CliResult
  | .error _ => errorResult text status
  | .ok payload => request_all_safe_results fetch fuel results payload (resultsField payload)
termination_by e => (fuel, 3)

/-- Non-list payloads are returned verbatim; otherwise extend with results. -/
def request_all_safe_results (fetch : Transport) (fuel : Nat) (results : List Value)
    (payload : Value) : Option Value → CliResult
  | none => .value payload
  | some rv => request_all_safe_extend fetch fuel results payload (extendItems rv)
termination_by o => (fuel, 2)

def request_all_safe_extend (fetch : Transport) (fuel : Nat) (results : List Value)
    (payload : Value) : Option (List Value) → CliResult
  | none => .pyError
  | some items => request_all_safe_go fetch fuel (nextField payload) (results ++ items)
termination_by o => (fuel, 1)

end

/-- Embedding of request_all_safe (error-capturing pagination). -/
def request_all_safe (fetch : Transport) (fuel : Nat) (url : String) : CliResult :=
  request_all_safe_go fetch fuel (.str url) []

/-! Canonical JSON serialization.  json.dumps(..., sort_keys=True) emits each
dict's items in sorted key order; this is modelled by serializing the
recursively key-sorted copy `canon v` of the value. -/

/-- Comparison of dict items by key, the order Python sorted() uses on the
(unique) keys of a dict. -/
def keyLE (a b : String × Value) : Prop := a.1 ≤ b.1

instance : DecidableRel keyLE := fun a b => inferInstanceAs (Decidable (a.1 ≤ b.1))

instance : IsTotal (String × Value) keyLE := ⟨fun a b => le_total a.1 b.1⟩

instance : IsTrans (String × Value) keyLE := ⟨fun _ _ _ h₁ h₂ => le_trans h₁ h₂⟩

def sortByKey (l : List (String × Value)) : List (String × Value) := List.insertionSort keyLE l

mutual

/-- Recursively sort every object of a value by key (insertion sort,
matching Python sorted() on the unique keys of a dict). -/
def canon : Value → Value
  | .null => .null
  | .bool b => .bool b
  | .num n => .num n
  | .str s => .str s
  | .arr xs => .arr (canonItems xs)
  | .obj kvs => .obj (sortByKey (canonMembers kvs))

def canonItems : List Value → List Value
  | [] => []
  | x :: xs => canon x :: canonItems xs

def canonMembers : List (String × Value) → List (String × Value)
  | [] => []
  | e :: es => (e.1, canon e.2) :: canonMembers es

end

def hexDigitChar (k : Nat) : Char := Char.ofNat (if k < 10 then 48 + k else 87 + k)

def hex4 (n : Nat) : List Char :=
  [hexDigitChar (n / 4096 % 16), hexDigitChar (n / 256 % 16),
   hexDigitChar (n / 16 % 16), hexDigitChar (n % 16)]

/-- Escape one character the way json.dumps does with its default
ensure_ascii=True: quote and backslash escaped, the shorthand escapes for
the common control characters, printable ASCII kept, everything else as
lowercase \uXXXX (with a surrogate pair beyond the basic plane). -/
def escChar (c : Char) : List Char :=
  if c = '"' then ['\\', '"']
  else if c = '\\' then ['\\', '\\']
  else if c = '\x08' then ['\\', 'b']
  else if c = '\t' then ['\\', 't']
  else if c = '\n' then ['\\', 'n']
  else if c = '\x0c' then ['\\', 'f']
  else if c = '\r' then ['\\', 'r']
  else if 0x20 ≤ c.toNat ∧ c.toNat ≤ 0x7e then [c]
  else if c.toNat < 0x10000 then '\\' :: 'u' :: hex4 c.toNat
  else
    ('\\' :: 'u' :: hex4 (0xd800 + (c.toNat - 0x10000) / 0x400)) ++
    ('\\' :: 'u' :: hex4 (0xdc00 + (c.toNat - 0x10000) % 0x400))

def escList : List Char → List Char
  | [] => []
  | c :: cs => escChar c ++ escList cs

def natCharsAux : Nat → List Char → List Char
  | 0, acc => acc
  | n + 1, acc => natCharsAux ((n + 1) / 10) (Char.ofNat (48 + (n + 1) % 10) :: acc)

/-- Decimal digits of a natural number (Python repr of a non-negative int). -/
def natChars (n : Nat) : List Char := if n = 0 then ['0'] else natCharsAux n []

/-- Python repr of an int. -/
def intChars (n : Int) : List Char :=
  if n < 0 then '-' :: natChars n.natAbs else natChars n.toNat

def spaces (n : Nat) : List Char := List.replicate n ' '

mutual

/-- Serializer for json.dumps(..., indent=2) at a given indent level; dict
items are expected in final (sorted) order, see format_json. -/
def renderV : Nat → Value → List Char
  | _, .null => ['n', 'u', 'l', 'l']
  | _, .bool true => ['t', 'r', 'u', 'e']
  | _, .bool false => ['f', 'a', 'l', 's', 'e']
  | _, .num n => intChars n
  | _, .str s => '"' :: (escList s.data ++ ['"'])
  | _, .arr [] => ['[', ']']
  | ind, .arr (x :: xs) =>
    '[' :: '\n' :: (spaces (ind + 2) ++ (renderV (ind + 2) x ++ (renderItems (ind + 2) xs ++
      ('\n' :: (spaces ind ++ [']'])))))
  | _, .obj [] => ['{', '}']
  | ind, .obj (e :: es) =>
    '{' :: '\n' :: (spaces (ind + 2) ++ (renderMember (ind + 2) e ++ (renderMembers (ind + 2) es ++
      ('\n' :: (spaces ind ++ ['}'])))))

def renderItems : Nat → List Value → List Char
  | _, [] => []
  | ind, x :: xs => ',' :: '\n' :: (spaces ind ++ (renderV ind x ++ renderItems ind xs))

def renderMember : Nat → String × Value → List Char
  | ind, e => '"' :: (escList e.1.data ++ ('"' :: ':' :: ' ' :: renderV ind e.2))

def renderMembers : Nat → List (String × Value) → List Char
  | _, [] => []
  | ind, e :: es => ',' :: '\n' :: (spaces ind ++ (renderMember ind e ++ renderMembers ind es))

end

/-- Embedding of format_json: json.dumps(payload, indent=2, sort_keys=True). -/
def format_json (payload : Value) : String := String.mk (renderV 0 (canon payload))

mutual

/-- Serializer for json.dumps with default separators (", " and ": "), as
used by the source for nested CSV cells and flattened array leaves. -/
def renderC : Value → List Char
  | .null => 'n' :: ("ull" : String).data
  | .bool true => 't' :: ("rue" : String).data
  | .bool false => 'f' :: ("alse" : String).data
  | .num n => intChars n
  | .str s => '"' :: (escList s.data ++ ['"'])
  | .arr [] => ['[', ']']
  | .arr (x :: xs) => '[' :: (renderC x ++ (renderCItems xs ++ [']']))
  | .obj [] => ['{', '}']
  | .obj (e :: es) => '{' :: (renderCMember e ++ (renderCMembers es ++ ['}']))

def renderCItems : List Value → List Char
  | [] => []
  | x :: xs => ',' :: ' ' :: (renderC x ++ renderCItems xs)

def renderCMember : String × Value → List Char
  | e => '"' :: (escList e.1.data ++ ('"' :: ':' :: ' ' :: renderC e.2))

def renderCMembers : List (String × Value) → List Char
  | [] => []
  | e :: es => ',' :: ' ' :: (renderCMember e ++ renderCMembers es)

end

/-- Embedding of json.dumps(payload, sort_keys=True). -/
def dumps_compact (payload : Value) : String := String.mk (renderC (canon payload))

/-! JSON parsing, modelling json.loads on the fragment the encoder emits
(integers only among numbers; floating point is out of scope). -/

def isWsJson (c : Char) : Bool := c = ' ' || c = '\t' || c = '\n' || c = '\r'

def skipWs (cs : List Char) : List Char := cs.dropWhile isWsJson

def isHexDigit (c : Char) : Bool :=
  c.isDigit || ('a' ≤ c && c ≤ 'f') || ('A' ≤ c && c ≤ 'F')

def hexValD (c : Char) : Nat :=
  if c.isDigit then c.toNat - 48
  else if 'a' ≤ c ∧ c ≤ 'f' then c.toNat - 87
  else c.toNat - 55

def hexQuad (a b c d : Char) : Nat :=
  hexValD a * 4096 + hexValD b * 256 + hexValD c * 16 + hexValD d

def consStr (c : Char) : Option (List Char × List Char) → Option (List Char × List Char)
  | none => none
  | some (s, r) => some (c :: s, r)

mutual

/-- JSON string-body parser: after the opening quote has been consumed,
read and unescape characters up to the closing quote. -/
def parseStrBody : List Char → Option (List Char × List Char)
  | [] => none
  | c :: rest =>
    if c = '"' then some ([], rest)
    else if c = '\\' then parseEsc rest
    else if c.toNat < 0x20 then none
    else consStr c (parseStrBody rest)

def parseEsc : List Char → Option (List Char × List Char)
  | [] => none
  | e :: rest =>
    if e = '"' then consStr '"' (parseStrBody rest)
    else if e = '\\' then consStr '\\' (parseStrBody rest)
    else if e = '/' then consStr '/' (parseStrBody rest)
    else if e = 'b' then consStr '\x08' (parseStrBody rest)
    else if e = 'f' then consStr '\x0c' (parseStrBody rest)
    else if e = 'n' then consStr '\n' (parseStrBody rest)
    else if e = 'r' then consStr '\r' (parseStrBody rest)
    else if e = 't' then consStr '\t' (parseStrBody rest)
    else if e = 'u' then parseHexEsc rest
    else none

def parseHexEsc : List Char → Option (List Char × List Char)
  | a :: b :: c :: d :: r =>
    if isHexDigit a && isHexDigit b && isHexDigit c && isHexDigit d then
      if 0xd800 ≤ hexQuad a b c d ∧ hexQuad a b c d ≤ 0xdbff then
        parseLowSurr (hexQuad a b c d) r
      else if 0xdc00 ≤ hexQuad a b c d ∧ hexQuad a b c d ≤ 0xdfff then none
      else consStr (Char.ofNat (hexQuad a b c d)) (parseStrBody r)
    else none
  | _ => none

def parseLowSurr (n : Nat) : List Char → Option (List Char × List Char)
  | '\\' :: 'u' :: a :: b :: c :: d :: r =>
    if isHexDigit a && isHexDigit b && isHexDigit c && isHexDigit d then
      if 0xdc00 ≤ hexQuad a b c d ∧ hexQuad a b c d ≤ 0xdfff then
        consStr (Char.ofNat (0x10000 + (n - 0xd800) * 0x400 + (hexQuad a b c d - 0xdc00)))
          (parseStrBody r)
      else none
    else none
  | _ => none

end

def digitVal (c : Char) : Nat := c.toNat - 48

def parseNatDigits (cs : List Char) : Option (Nat × List Char) :=
  let ds := cs.takeWhile Char.isDigit
  if ds.isEmpty then none
  else some (ds.foldl (fun a c => a * 10 + digitVal c) 0, cs.dropWhile Char.isDigit)

def parseNum (cs : List Char) : Option (Int × List Char) :=
  match cs with
  | [] => none
  | c :: rest =>
    if c = '-' then (parseNatDigits rest).map (fun p => (-(p.1 : Int), p.2))
    else (parseNatDigits (c :: rest)).map (fun p => ((p.1 : Int), p.2))

def strResult : Option (List Char × List Char) → Option (Value × List Char)
  | none => none
  | some (s, r) => some (.str (String.mk s), r)

def numResult : Option (Int × List Char) → Option (Value × List Char)
  | none => none
  | some (n, r) => some (.num n, r)

def objResult : Option (List (String × Value) × List Char) → Option (Value × List Char)
  | none => none
  | some (kvs, r) => some (.obj kvs, r)

def arrResult : Option (List Value × List Char) → Option (Value × List Char)
  | none => none
  | some (xs, r) => some (.arr xs, r)

def consMember (k : String) (v : Value) :
    Option (List (String × Value) × List Char) → Option (List (String × Value) × List Char)
  | none => none
  | some (kvs, r) => some ((k, v) :: kvs, r)

def consItem (v : Value) : Option (List Value × List Char) → Option (List Value × List Char)
  | none => none
  | some (xs, r) => some (v :: xs, r)

def parseLitNull : List Char → Option (Value × List Char)
  | 'u' :: 'l' :: 'l' :: r => some (.null, r)
  | _ => none

def parseLitTrue : List Char → Option (Value × List Char)
  | 'r' :: 'u' :: 'e' :: r => some (.bool true, r)
  | _ => none

def parseLitFalse : List Char → Option (Value × List Char)
  | 'a' :: 'l' :: 's' :: 'e' :: r => some (.bool false, r)
  | _ => none

mutual

/-- JSON value parser, fuel-indexed recursive descent, staged into one
function per grammar position so that every step is a rewriting equation. -/
def parseVal : Nat → List Char → Option (Value × List Char)
  | 0, _ => none
  | fuel + 1, cs => parseValCore fuel (skipWs cs)
termination_by f cs => (f, 0)

def parseValCore : Nat → List Char → Option (Value × List Char)
  | _, [] => none
  | fuel, c :: rest =>
    if c = 'n' then parseLitNull rest
    else if c = 't' then parseLitTrue rest
    else if c = 'f' then parseLitFalse rest
    else if c = '"' then strResult (parseStrBody rest)
    else if c = '{' then parseObjBody fuel (skipWs rest)
    else if c = '[' then parseArrBody fuel (skipWs rest)
    else numResult (parseNum (c :: rest))
termination_by f cs => (f, 3)

def parseObjBody : Nat → List Char → Option (Value × List Char)
  | _, [] => none
  | fuel, c :: r =>
    if c = '}' then some (.obj [], r)
    else objResult (parseMembers fuel (c :: r))
termination_by f cs => (f, 2)

def parseArrBody : Nat → List Char → Option (Value × List Char)
  | _, [] => none
  | fuel, c :: r =>
    if c = ']' then some (.arr [], r)
    else arrResult (parseItems fuel (c :: r))
termination_by f cs => (f, 2)

def parseMembers : Nat → List Char → Option (List (String × Value) × List Char)
  | 0, _ => none
  | fuel + 1, cs => parseMembersKey fuel (skipWs cs)
termination_by f cs => (f, 1)

def parseMembersKey : Nat → List Char → Option (List (String × Value) × List Char)
  | fuel, '"' :: rest => parseMembersSep fuel (parseStrBody rest)
  | _, _ => none
termination_by f cs => (f, 6)

def parseMembersSep : Nat → Option (List Char × List Char) →
    Option (List (String × Value) × List Char)
  | _, none => none
  | fuel, some (k, r1) => parseMembersColon fuel (String.mk k) (skipWs r1)
termination_by f p => (f, 5)

def parseMembersColon : Nat → String → List Char → Option (List (String × Value) × List Char)
  | fuel, k, ':' :: r2 => parseMembersVal fuel k (parseVal fuel r2)
  | _, _, _ => none
termination_by f k cs => (f, 4)

def parseMembersVal : Nat → String → Option (Value × List Char) →
    Option (List (String × Value) × List Char)
  | _, _, none => none
  | fuel, k, some (v, r3) => parseMembersTail fuel k v (skipWs r3)
termination_by f k p => (f, 3)

def parseMembersTail : Nat → String → Value → List Char →
    Option (List (String × Value) × List Char)
  | fuel, k, v, ',' :: r4 => consMember k v (parseMembers fuel r4)
  | _, k, v, '}' :: r4 => some ([(k, v)], r4)
  | _, _, _, _ => none
termination_by f k v cs => (f, 2)

def parseItems : Nat → List Char → Option (List Value × List Char)
  | 0, _ => none
  | fuel + 1, cs => parseItemsVal fuel (parseVal fuel cs)
termination_by f cs => (f, 1)

def parseItemsVal : Nat → Option (Value × List Char) → Option (List Value × List Char)
  | _, none => none
  | fuel, some (v, r1) => parseItemsTail fuel v (skipWs r1)
termination_by f p => (f, 3)

def parseItemsTail : Nat → Value → List Char → Option (List Value × List Char)
  | fuel, v, ',' :: r2 => consItem v (parseItems fuel r2)
  | _, v, ']' :: r2 => some ([v], r2)
  | _, _, _ => none
termination_by f v cs => (f, 2)

end

def parseJsonEnd : Option (Value × List Char) → Option Value
  | none => none
  | some (v, rest) => if skipWs rest = [] then some v else none

/-- Embedding of json.loads on the fragment the encoder emits: parse one
value, then require only whitespace to remain. -/
def parseJson (s : String) : Option Value :=
  parseJsonEnd (parseVal (s.data.length + 1) s.data)

/-! Well-formedness (unique keys at every object level, as Python dicts
guarantee) and dict-style equality of values (Python ==, which ignores the
insertion order of dict entries). -/

mutual

def wfKeys : Value → Prop
  | .null => True
  | .bool _ => True
  | .num _ => True
  | .str _ => True
  | .arr xs => wfKeysItems xs
  | .obj kvs => (kvs.map Prod.fst).Nodup ∧ wfKeysMembers kvs

def wfKeysItems : List Value → Prop
  | [] => True
  | x :: xs => wfKeys x ∧ wfKeysItems xs

def wfKeysMembers : List (String × Value) → Prop
  | [] => True
  | e :: es => wfKeys e.2 ∧ wfKeysMembers es

end

theorem wfKeysItems_iff : ∀ xs : List Value, wfKeysItems xs ↔ ∀ x ∈ xs, wfKeys x := by
  intro xs
  induction xs with
  | nil => simp [wfKeysItems]
  | cons y ys ih => simp [wfKeysItems, ih]

theorem wfKeysMembers_iff :
    ∀ kvs : List (String × Value), wfKeysMembers kvs ↔ ∀ e ∈ kvs, wfKeys e.2 := by
  intro kvs
  induction kvs with
  | nil => simp [wfKeysMembers]
  | cons f fs ih => simp [wfKeysMembers, ih]

/-- Python equality on JSON values: structural on scalars and arrays, and
equality as finite maps on objects (a permutation matching up equal keys
with equivalent values). -/
inductive VEquiv : Value → Value → Prop where
  | null : VEquiv .null .null
  | bool (b : Bool) : VEquiv (.bool b) (.bool b)
  | num (n : Int) : VEquiv (.num n) (.num n)
  | str (s : String) : VEquiv (.str s) (.str s)
  | arr {xs ys : List Value} : List.Forall₂ VEquiv xs ys → VEquiv (.arr xs) (.arr ys)
  | obj {kvs₁ mid kvs₂ : List (String × Value)} : List.Perm kvs₁ mid →
      mid.map Prod.fst = kvs₂.map Prod.fst →
      List.Forall₂ VEquiv (mid.map Prod.snd) (kvs₂.map Prod.snd) →
      VEquiv (.obj kvs₁) (.obj kvs₂)

def canonE (e : String × Value) : String × Value := (e.1, canon e.2)

theorem canonItems_eq_map : ∀ xs : List Value, canonItems xs = xs.map canon := by
  intro xs
  induction xs with
  | nil => simp [canonItems]
  | cons y ys ih => simp [canonItems, ih]

theorem canonMembers_eq_map :
    ∀ kvs : List (String × Value), canonMembers kvs = kvs.map canonE := by
  intro kvs
  induction kvs with
  | nil => simp [canonMembers]
  | cons f fs ih => simp [canonMembers, ih, canonE]

theorem sortByKey_perm (l : List (String × Value)) : List.Perm (sortByKey l) l :=
  List.perm_insertionSort keyLE l

theorem sortByKey_sortedLE (l : List (String × Value)) : List.Sorted keyLE (sortByKey l) :=
  List.sorted_insertionSort keyLE l

def keyLT (a b : String × Value) : Prop := a.1 < b.1

instance : IsAntisymm (String × Value) keyLT :=
  ⟨fun _ _ h₁ h₂ => ((lt_asymm h₁) h₂).elim⟩

theorem sorted_keyLT_of_nodup {l : List (String × Value)} (hs : List.Sorted keyLE l)
    (hnd : (l.map Prod.fst).Nodup) : List.Sorted keyLT l := by
  have hne : List.Pairwise (fun a b : String × Value => a.1 ≠ b.1) l :=
    List.pairwise_map.mp hnd
  have hand := List.Pairwise.and hs hne
  exact hand.imp (fun h => lt_of_le_of_ne h.1 h.2)

theorem sortByKey_eq_of_perm {l₁ l₂ : List (String × Value)} (hp : List.Perm l₁ l₂)
    (hnd : (l₁.map Prod.fst).Nodup) : sortByKey l₁ = sortByKey l₂ := by
  have hp2 : List.Perm (sortByKey l₁) (sortByKey l₂) :=
    (sortByKey_perm l₁).trans (hp.trans (sortByKey_perm l₂).symm)
  have hnd₂ : (l₂.map Prod.fst).Nodup := ((hp.map Prod.fst).nodup_iff).mp hnd
  have hs₁ : ((sortByKey l₁).map Prod.fst).Nodup :=
    (((sortByKey_perm l₁).map Prod.fst).nodup_iff).mpr hnd
  have hs₂ : ((sortByKey l₂).map Prod.fst).Nodup :=
    (((sortByKey_perm l₂).map Prod.fst).nodup_iff).mpr hnd₂
  exact List.eq_of_perm_of_sorted hp2
    (sorted_keyLT_of_nodup (sortByKey_sortedLE l₁) hs₁)
    (sorted_keyLT_of_nodup (sortByKey_sortedLE l₂) hs₂)

theorem forall₂_canon {xs : List Value} (h : ∀ x ∈ xs, VEquiv (canon x) x) :
    List.Forall₂ VEquiv (xs.map canon) xs := by
  induction xs with
  | nil => exact List.Forall₂.nil
  | cons y ys ih =>
    exact List.Forall₂.cons (h y (by simp)) (ih (fun x hx => h x (by simp [hx])))

/-- Canonicalization is invisible to Python equality. -/
theorem vequiv_canon : ∀ v, VEquiv (canon v) v := by
  intro v
  induction v using Value.strongInd with
  | hnull => simp only [canon]; exact VEquiv.null
  | hbool b => simp only [canon]; exact VEquiv.bool b
  | hnum n => simp only [canon]; exact VEquiv.num n
  | hstr s => simp only [canon]; exact VEquiv.str s
  | harr xs ih =>
    simp only [canon, canonItems_eq_map]
    exact VEquiv.arr (forall₂_canon ih)
  | hobj kvs ih =>
    simp only [canon, canonMembers_eq_map]
    refine @VEquiv.obj _ (kvs.map canonE) _ (sortByKey_perm _) ?_ ?_
    · rw [List.map_map]; rfl
    · rw [List.map_map]
      have : (Prod.snd ∘ canonE) = canon ∘ Prod.snd := rfl
      rw [this, ← List.map_map]
      refine forall₂_canon (fun y hy => ?_)
      rcases List.mem_map.mp hy with ⟨e, he, rfl⟩
      exact ih e he

theorem map_canon_eq_of_forall₂ : ∀ {xs ys : List Value}, List.Forall₂ VEquiv xs ys →
    (∀ x ∈ xs, wfKeys x → ∀ w, wfKeys w → VEquiv x w → canon x = canon w) →
    (∀ x ∈ xs, wfKeys x) → (∀ y ∈ ys, wfKeys y) → xs.map canon = ys.map canon := by
  intro xs ys h
  induction h with
  | nil => simp
  | @cons a b l₁ l₂ hab htail ih =>
    intro hrec hwx hwy
    simp only [List.map_cons, List.cons.injEq]
    constructor
    · exact hrec a (by simp) (hwx a (by simp)) b (hwy b (by simp)) hab
    · exact ih (fun x hx => hrec x (by simp [hx])) (fun x hx => hwx x (by simp [hx]))
        (fun y hy => hwy y (by simp [hy]))

theorem map_canonE_eq_of_keys_vals : ∀ (l₁ l₂ : List (String × Value)),
    l₁.map Prod.fst = l₂.map Prod.fst →
    List.Forall₂ VEquiv (l₁.map Prod.snd) (l₂.map Prod.snd) →
    (∀ e ∈ l₁, wfKeys e.2 → ∀ w, wfKeys w → VEquiv e.2 w → canon e.2 = canon w) →
    (∀ e ∈ l₁, wfKeys e.2) → (∀ e ∈ l₂, wfKeys e.2) →
    l₁.map canonE = l₂.map canonE := by
  intro l₁
  induction l₁ with
  | nil =>
    intro l₂ hk _ _ _ _
    cases l₂ with
    | nil => rfl
    | cons f fs => simp at hk
  | cons e es ih =>
    intro l₂ hk hv hrec hw₁ hw₂
    cases l₂ with
    | nil => simp at hk
    | cons f fs =>
      simp only [List.map_cons, List.cons.injEq] at hk hv ⊢
      cases hv with
      | cons hef htail =>
        refine ⟨?_, ih fs hk.2 htail (fun x hx => hrec x (by simp [hx]))
          (fun x hx => hw₁ x (by simp [hx])) (fun y hy => hw₂ y (by simp [hy]))⟩
        have h2 : canon e.2 = canon f.2 :=
          hrec e (by simp) (hw₁ e (by simp)) f.2 (hw₂ f (by simp)) hef
        simp [canonE, hk.1, h2]

/-- Canonicalization maps Python-equal well-formed values to the same
canonical value. -/
theorem canon_eq_of_vequiv : ∀ v, wfKeys v → ∀ w, wfKeys w → VEquiv v w → canon v = canon w := by
  intro v
  induction v using Value.strongInd with
  | hnull => intro _ w _ h; cases h; rfl
  | hbool b => intro _ w _ h; cases h; rfl
  | hnum n => intro _ w _ h; cases h; rfl
  | hstr s => intro _ w _ h; cases h; rfl
  | harr xs ih =>
    intro hwv w hww h
    cases h with
    | arr hf =>
      rename_i ys
      simp only [canon, canonItems_eq_map]
      have hx : ∀ x ∈ xs, wfKeys x := (wfKeysItems_iff xs).mp (by simpa [wfKeys] using hwv)
      have hy : ∀ y ∈ ys, wfKeys y := (wfKeysItems_iff ys).mp (by simpa [wfKeys] using hww)
      rw [map_canon_eq_of_forall₂ hf ih hx hy]
  | hobj kvs ih =>
    intro hwv w hww h
    cases h with
    | obj hperm hk hv =>
      rename_i mid kvs₂
      simp only [canon, canonMembers_eq_map]
      have hwv' : (kvs.map Prod.fst).Nodup ∧ wfKeysMembers kvs := by simpa [wfKeys] using hwv
      have hww' : (kvs₂.map Prod.fst).Nodup ∧ wfKeysMembers kvs₂ := by simpa [wfKeys] using hww
      have hmemmid : ∀ e ∈ mid, e ∈ kvs := fun e he => (hperm.mem_iff).mpr he
      have hstep1 : sortByKey (kvs.map canonE) = sortByKey (mid.map canonE) := by
        refine sortByKey_eq_of_perm (hperm.map canonE) ?_
        have : (kvs.map canonE).map Prod.fst = kvs.map Prod.fst := by
          rw [List.map_map]; rfl
        rw [this]; exact hwv'.1
      have hstep2 : mid.map canonE = kvs₂.map canonE := by
        refine map_canonE_eq_of_keys_vals mid kvs₂ hk hv
          (fun e he => ih e (hmemmid e he)) ?_ ?_
        · exact fun e he => (wfKeysMembers_iff kvs).mp hwv'.2 e (hmemmid e he)
        · exact fun e he => (wfKeysMembers_iff kvs₂).mp hww'.2 e he
      rw [hstep1, hstep2]

/-! Round trip of the JSON serializer and parser: groundwork on whitespace,
decimal digits and hex escapes. -/

theorem skipWs_append_of_ws {ws : List Char} (h : ∀ c ∈ ws, isWsJson c = true)
    (l : List Char) : skipWs (ws ++ l) = skipWs l := by
  induction ws with
  | nil => rfl
  | cons c cs ih =>
    have hc : isWsJson c = true := h c (by simp)
    simp only [List.cons_append, skipWs, List.dropWhile_cons, hc, if_pos]
    exact ih (fun d hd => h d (by simp [hd]))

theorem skipWs_cons_of_not {c : Char} (h : isWsJson c = false) (l : List Char) :
    skipWs (c :: l) = c :: l := by
  simp [skipWs, List.dropWhile_cons, h]

theorem spaces_ws (n : Nat) : ∀ c ∈ spaces n, isWsJson c = true := by
  intro c hc
  rcases (List.eq_of_mem_replicate hc) with rfl
  rfl

theorem natCharsAux_eq_append : ∀ n acc, natCharsAux n acc = natCharsAux n [] ++ acc := by
  intro n
  induction n using Nat.strong_induction_on with
  | _ n ih =>
    intro acc
    match n with
    | 0 => simp [natCharsAux]
    | m + 1 =>
      have hlt : (m + 1) / 10 < m + 1 := Nat.div_lt_self (by omega) (by omega)
      rw [natCharsAux, natCharsAux, ih _ hlt, ih _ hlt (Char.ofNat (48 + (m + 1) % 10) :: [])]
      simp

theorem digitChar_facts : ∀ k : Fin 10, (Char.ofNat (48 + k.val)).isDigit = true ∧
    (Char.ofNat (48 + k.val)).toNat = 48 + k.val := by decide

theorem digitChar_isDigit {k : Nat} (hk : k < 10) : (Char.ofNat (48 + k)).isDigit = true :=
  (digitChar_facts ⟨k, hk⟩).1

theorem digitChar_toNat {k : Nat} (hk : k < 10) : (Char.ofNat (48 + k)).toNat = 48 + k :=
  (digitChar_facts ⟨k, hk⟩).2

theorem natCharsAux_digits : ∀ n, ∀ c ∈ natCharsAux n [], c.isDigit = true := by
  intro n
  induction n using Nat.strong_induction_on with
  | _ n ih =>
    intro c hc
    match n with
    | 0 => simp [natCharsAux] at hc
    | m + 1 =>
      rw [natCharsAux, natCharsAux_eq_append] at hc
      rcases List.mem_append.mp hc with h | h
      · exact ih _ (Nat.div_lt_self (by omega) (by omega)) c h
      · simp at h
        subst h
        exact digitChar_isDigit (Nat.mod_lt _ (by omega))

theorem natChars_digits (n : Nat) : ∀ c ∈ natChars n, c.isDigit = true := by
  intro c hc
  by_cases h : n = 0
  · subst h
    simp [natChars] at hc
    subst hc
    rfl
  · rw [natChars, if_neg h] at hc
    exact natCharsAux_digits n c hc

theorem natChars_ne_nil (n : Nat) : natChars n ≠ [] := by
  by_cases h : n = 0
  · subst h; simp [natChars]
  · rw [natChars, if_neg h]
    match n, h with
    | m + 1, _ =>
      rw [natCharsAux, natCharsAux_eq_append]
      simp

theorem foldl_natCharsAux : ∀ n, 1 ≤ n → ∀ a,
    (natCharsAux n []).foldl (fun x c => x * 10 + digitVal c) a =
      a * 10 ^ (natCharsAux n []).length + n := by
  intro n
  induction n using Nat.strong_induction_on with
  | _ n ih =>
    intro hn a
    match n, hn with
    | m + 1, _ =>
      rw [natCharsAux, natCharsAux_eq_append]
      have hdv : digitVal (Char.ofNat (48 + (m + 1) % 10)) = (m + 1) % 10 := by
        rw [digitVal, digitChar_toNat (Nat.mod_lt _ (by omega))]
        omega
      by_cases hz : (m + 1) / 10 = 0
      · rw [hz]
        simp only [natCharsAux, List.nil_append, List.foldl_cons, List.foldl_nil,
          List.length_cons, List.length_nil]
        rw [hdv]
        have hlt10 : m + 1 < 10 := by omega
        have hmod : (m + 1) % 10 = m + 1 := Nat.mod_eq_of_lt hlt10
        simp [hmod]
      · rw [List.foldl_append]
        simp only [List.foldl_cons, List.foldl_nil]
        rw [ih _ (Nat.div_lt_self (by omega) (by omega)) (by omega) a, hdv]
        rw [List.length_append, List.length_cons, List.length_nil, pow_succ]
        have hq : ((m + 1) / 10) * 10 + (m + 1) % 10 = m + 1 := by omega
        calc (a * 10 ^ (natCharsAux ((m + 1) / 10) []).length + (m + 1) / 10) * 10 + (m + 1) % 10
            = a * (10 ^ (natCharsAux ((m + 1) / 10) []).length * 10) +
              (((m + 1) / 10) * 10 + (m + 1) % 10) := by ring
          _ = a * (10 ^ (natCharsAux ((m + 1) / 10) []).length * 10) + (m + 1) := by rw [hq]

theorem foldl_natChars (n : Nat) :
    (natChars n).foldl (fun x c => x * 10 + digitVal c) 0 = n := by
  by_cases h : n = 0
  · subst h; rfl
  · rw [natChars, if_neg h]
    rw [foldl_natCharsAux n (by omega) 0]
    simp

def headNotDigit (cs : List Char) : Prop :=
  match cs with
  | [] => True
  | c :: _ => c.isDigit = false

theorem takeWhile_digits_append {ds rest : List Char} (hds : ∀ c ∈ ds, c.isDigit = true)
    (hrest : headNotDigit rest) :
    (ds ++ rest).takeWhile Char.isDigit = ds ∧ (ds ++ rest).dropWhile Char.isDigit = rest := by
  induction ds with
  | nil =>
    simp only [List.nil_append]
    cases rest with
    | nil => simp
    | cons c t =>
      have : c.isDigit = false := hrest
      simp [List.takeWhile_cons, List.dropWhile_cons, this]
  | cons c cs ih =>
    have hc : c.isDigit = true := hds c (by simp)
    have := ih (fun d hd => hds d (by simp [hd]))
    simp [List.takeWhile_cons, List.dropWhile_cons, hc, this.1, this.2]

theorem parseNatDigits_round {n : Nat} {rest : List Char} (hrest : headNotDigit rest) :
    parseNatDigits (natChars n ++ rest) = some (n, rest) := by
  have h := takeWhile_digits_append (natChars_digits n) hrest
  rw [parseNatDigits]
  simp only [h.1, h.2]
  rw [if_neg (by simp [List.isEmpty_iff, natChars_ne_nil n])]
  rw [foldl_natChars]

theorem natChars_head (n : Nat) : ∃ c t, natChars n = c :: t ∧ c.isDigit = true := by
  cases hn : natChars n with
  | nil => exact absurd hn (natChars_ne_nil n)
  | cons c t =>
    refine ⟨c, t, rfl, ?_⟩
    have := natChars_digits n c (by rw [hn]; simp)
    exact this

theorem parseNum_round {n : Int} {rest : List Char} (hrest : headNotDigit rest) :
    parseNum (intChars n ++ rest) = some (n, rest) := by
  by_cases hneg : n < 0
  · rw [intChars, if_pos hneg]
    simp only [List.cons_append]
    rw [parseNum]
    rw [if_pos rfl]
    rw [parseNatDigits_round hrest]
    simp only [Option.map_some', Option.some.injEq, Prod.mk.injEq]
    exact ⟨by omega, trivial⟩
  · rw [intChars, if_neg hneg]
    obtain ⟨c, t, hct, hdig⟩ := natChars_head n.toNat
    rw [hct]
    simp only [List.cons_append]
    rw [parseNum]
    have hcne : ¬(c = '-') := by
      intro h
      subst h
      simp [Char.isDigit] at hdig
    rw [if_neg hcne]
    rw [← List.cons_append, ← hct, parseNatDigits_round hrest]
    simp only [Option.map_some', Option.some.injEq, Prod.mk.injEq]
    exact ⟨by omega, trivial⟩

theorem char_valid_range (c : Char) :
    c.toNat < 0x110000 ∧ ¬(0xd800 ≤ c.toNat ∧ c.toNat ≤ 0xdfff) := by
  have h := c.valid
  have hb : c.toNat = c.val.toNat := rfl
  rcases h with h | ⟨h1, h2⟩
  · refine ⟨by omega, by omega⟩
  · refine ⟨by omega, by omega⟩

theorem hexDigitChar_facts : ∀ k : Fin 16, isHexDigit (hexDigitChar k.val) = true ∧
    hexValD (hexDigitChar k.val) = k.val := by decide

theorem hex4_areHexDigits {n : Nat} (hn : n < 65536) :
    (isHexDigit (hexDigitChar (n / 4096 % 16)) && isHexDigit (hexDigitChar (n / 256 % 16)) &&
      isHexDigit (hexDigitChar (n / 16 % 16)) && isHexDigit (hexDigitChar (n % 16))) = true := by
  have h1 := (hexDigitChar_facts ⟨n / 4096 % 16, Nat.mod_lt _ (by omega)⟩).1
  have h2 := (hexDigitChar_facts ⟨n / 256 % 16, Nat.mod_lt _ (by omega)⟩).1
  have h3 := (hexDigitChar_facts ⟨n / 16 % 16, Nat.mod_lt _ (by omega)⟩).1
  have h4 := (hexDigitChar_facts ⟨n % 16, Nat.mod_lt _ (by omega)⟩).1
  simp only at h1 h2 h3 h4
  simp [h1, h2, h3, h4]

theorem hexQuad_hex4 {n : Nat} (hn : n < 65536) :
    hexQuad (hexDigitChar (n / 4096 % 16)) (hexDigitChar (n / 256 % 16))
      (hexDigitChar (n / 16 % 16)) (hexDigitChar (n % 16)) = n := by
  have h1 := (hexDigitChar_facts ⟨n / 4096 % 16, Nat.mod_lt _ (by omega)⟩).2
  have h2 := (hexDigitChar_facts ⟨n / 256 % 16, Nat.mod_lt _ (by omega)⟩).2
  have h3 := (hexDigitChar_facts ⟨n / 16 % 16, Nat.mod_lt _ (by omega)⟩).2
  have h4 := (hexDigitChar_facts ⟨n % 16, Nat.mod_lt _ (by omega)⟩).2
  simp only at h1 h2 h3 h4
  rw [hexQuad, h1, h2, h3, h4]
  omega

theorem parseStrBody_round : ∀ (cs rest : List Char),
    parseStrBody (escList cs ++ ('"' :: rest)) = some (cs, rest) := by
  intro cs
  induction cs with
  | nil =>
    intro rest
    rw [escList, List.nil_append, parseStrBody, if_pos rfl]
  | cons c cs ih =>
    intro rest
    rw [escList, List.append_assoc]
    by_cases hq : c = '"'
    · subst hq
      rw [show escChar '"' = ['\\', '"'] from rfl]
      simp only [List.cons_append, List.nil_append]
      rw [parseStrBody, if_neg (by decide), if_pos rfl, parseEsc, if_pos rfl, ih rest]
      rfl
    · by_cases hb : c = '\\'
      · subst hb
        rw [show escChar '\\' = ['\\', '\\'] from rfl]
        simp only [List.cons_append, List.nil_append]
        rw [parseStrBody, if_neg (by decide), if_pos rfl, parseEsc, if_neg (by decide),
          if_pos rfl, ih rest]
        rfl
      · by_cases h8 : c = '\x08'
        · subst h8
          rw [show escChar '\x08' = ['\\', 'b'] from rfl]
          simp only [List.cons_append, List.nil_append]
          rw [parseStrBody, if_neg (by decide), if_pos rfl, parseEsc, if_neg (by decide),
            if_neg (by decide), if_neg (by decide), if_pos rfl, ih rest]
          rfl
        · by_cases ht : c = '\t'
          · subst ht
            rw [show escChar '\t' = ['\\', 't'] from rfl]
            simp only [List.cons_append, List.nil_append]
            rw [parseStrBody, if_neg (by decide), if_pos rfl, parseEsc, if_neg (by decide),
              if_neg (by decide), if_neg (by decide), if_neg (by decide), if_neg (by decide),
              if_neg (by decide), if_neg (by decide), if_pos rfl, ih rest]
            rfl
          · by_cases hn : c = '\n'
            · subst hn
              rw [show escChar '\n' = ['\\', 'n'] from rfl]
              simp only [List.cons_append, List.nil_append]
              rw [parseStrBody, if_neg (by decide), if_pos rfl, parseEsc, if_neg (by decide),
                if_neg (by decide), if_neg (by decide), if_neg (by decide), if_neg (by decide),
                if_pos rfl, ih rest]
              rfl
            · by_cases hf : c = '\x0c'
              · subst hf
                rw [show escChar '\x0c' = ['\\', 'f'] from rfl]
                simp only [List.cons_append, List.nil_append]
                rw [parseStrBody, if_neg (by decide), if_pos rfl, parseEsc, if_neg (by decide),
                  if_neg (by decide), if_neg (by decide), if_neg (by decide), if_pos rfl, ih rest]
                rfl
              · by_cases hr : c = '\r'
                · subst hr
                  rw [show escChar '\r' = ['\\', 'r'] from rfl]
                  simp only [List.cons_append, List.nil_append]
                  rw [parseStrBody, if_neg (by decide), if_pos rfl, parseEsc, if_neg (by decide),
                    if_neg (by decide), if_neg (by decide), if_neg (by decide), if_neg (by decide),
                    if_neg (by decide), if_pos rfl, ih rest]
                  rfl
                · by_cases hp : 0x20 ≤ c.toNat ∧ c.toNat ≤ 0x7e
                  · have hesc : escChar c = [c] := by
                      rw [escChar, if_neg hq, if_neg hb, if_neg h8, if_neg ht, if_neg hn,
                        if_neg hf, if_neg hr, if_pos hp]
                    rw [hesc]
                    simp only [List.cons_append, List.nil_append]
                    have hge : ¬(c.toNat < 0x20) := by omega
                    rw [parseStrBody, if_neg hq, if_neg hb, if_neg hge, ih rest]
                    rfl
                  · by_cases hbmp : c.toNat < 0x10000
                    · have hesc : escChar c = '\\' :: 'u' :: hex4 c.toNat := by
                        rw [escChar, if_neg hq, if_neg hb, if_neg h8, if_neg ht, if_neg hn,
                          if_neg hf, if_neg hr, if_neg hp, if_pos hbmp]
                      rw [hesc, hex4]
                      simp only [List.cons_append, List.nil_append]
                      rw [parseStrBody, if_neg (by decide), if_pos rfl, parseEsc,
                        if_neg (by decide), if_neg (by decide), if_neg (by decide),
                        if_neg (by decide), if_neg (by decide), if_neg (by decide),
                        if_neg (by decide), if_neg (by decide), if_pos rfl]
                      rw [parseHexEsc, if_pos (hex4_areHexDigits hbmp), hexQuad_hex4 hbmp]
                      have hval := char_valid_range c
                      rw [if_neg (by omega), if_neg (by omega), Char.ofNat_toNat, ih rest]
                      rfl
                    · have hval := char_valid_range c
                      have hesc : escChar c =
                          ('\\' :: 'u' :: hex4 (0xd800 + (c.toNat - 0x10000) / 0x400)) ++
                          ('\\' :: 'u' :: hex4 (0xdc00 + (c.toNat - 0x10000) % 0x400)) := by
                        rw [escChar, if_neg hq, if_neg hb, if_neg h8, if_neg ht, if_neg hn,
                          if_neg hf, if_neg hr, if_neg hp, if_neg hbmp]
                      rw [hesc, hex4, hex4]
                      simp only [List.cons_append, List.nil_append, List.append_assoc]
                      rw [parseStrBody, if_neg (by decide), if_pos rfl, parseEsc,
                        if_neg (by decide), if_neg (by decide), if_neg (by decide),
                        if_neg (by decide), if_neg (by decide), if_neg (by decide),
                        if_neg (by decide), if_neg (by decide), if_pos rfl]
                      have hhi : 0xd800 + (c.toNat - 0x10000) / 0x400 < 65536 := by omega
                      have hlo : 0xdc00 + (c.toNat - 0x10000) % 0x400 < 65536 := by omega
                      rw [parseHexEsc, if_pos (hex4_areHexDigits hhi), hexQuad_hex4 hhi]
                      rw [if_pos (by omega)]
                      rw [parseLowSurr, if_pos (hex4_areHexDigits hlo), hexQuad_hex4 hlo]
                      rw [if_pos (by omega)]
                      rw [ih rest]
                      simp only [consStr, Option.some.injEq, Prod.mk.injEq, List.cons.injEq,
                        and_true]
                      conv_rhs => rw [← Char.ofNat_toNat c]
                      exact congrArg Char.ofNat (by omega)

theorem strMk_data (s : String) : String.mk s.data = s := rfl

theorem isDigit_ne_lits {c : Char} (h : c.isDigit = true) :
    c ≠ 'n' ∧ c ≠ 't' ∧ c ≠ 'f' ∧ c ≠ '"' ∧ c ≠ '{' ∧ c ≠ '[' ∧ c ≠ ']' ∧ c ≠ '-' ∧
      isWsJson c = false := by
  have hne : ∀ d : Char, d.isDigit = false → c ≠ d := by
    intro d hd he
    subst he
    rw [h] at hd
    cases hd
  refine ⟨hne _ (by decide), hne _ (by decide), hne _ (by decide), hne _ (by decide),
    hne _ (by decide), hne _ (by decide), hne _ (by decide), hne _ (by decide), ?_⟩
  have h1 : c ≠ ' ' := hne _ (by decide)
  have h2 : c ≠ '\t' := hne _ (by decide)
  have h3 : c ≠ '\n' := hne _ (by decide)
  have h4 : c ≠ '\r' := hne _ (by decide)
  simp [isWsJson, h1, h2, h3, h4]

theorem intChars_head (n : Int) :
    ∃ c t, intChars n = c :: t ∧ (c.isDigit = true ∨ c = '-') := by
  by_cases hneg : n < 0
  · exact ⟨'-', natChars n.natAbs, by rw [intChars, if_pos hneg], Or.inr rfl⟩
  · obtain ⟨c, t, hct, hdig⟩ := natChars_head n.toNat
    exact ⟨c, t, by rw [intChars, if_neg hneg, hct], Or.inl hdig⟩

theorem skipWs_ws_cons {c : Char} (hc : isWsJson c = true) (l : List Char) :
    skipWs (c :: l) = skipWs l := by
  simp [skipWs, List.dropWhile_cons, hc]

theorem renderV_goodHead (ind : Nat) (v : Value) :
    ∃ c t, renderV ind v = c :: t ∧ isWsJson c = false ∧ c ≠ ']' := by
  cases v with
  | null => exact ⟨'n', ['u', 'l', 'l'], by rw [renderV], by decide, by decide⟩
  | bool b =>
    cases b with
    | true => exact ⟨'t', ['r', 'u', 'e'], by rw [renderV], by decide, by decide⟩
    | false => exact ⟨'f', ['a', 'l', 's', 'e'], by rw [renderV], by decide, by decide⟩
  | num n =>
    obtain ⟨c, t, hct, hcd⟩ := intChars_head n
    refine ⟨c, t, by rw [renderV, hct], ?_, ?_⟩
    · rcases hcd with hdig | hdash
      · exact (isDigit_ne_lits hdig).2.2.2.2.2.2.2.2
      · subst hdash; decide
    · rcases hcd with hdig | hdash
      · exact (isDigit_ne_lits hdig).2.2.2.2.2.2.1
      · subst hdash; decide
  | str s =>
    exact ⟨'"', escList s.data ++ ['"'], by rw [renderV], by decide, by decide⟩
  | arr xs =>
    cases xs with
    | nil => exact ⟨'[', [']'], by rw [renderV], by decide, by decide⟩
    | cons x xs =>
      exact ⟨'[', _, by rw [renderV], by decide, by decide⟩
  | obj kvs =>
    cases kvs with
    | nil => exact ⟨'{', ['}'], by rw [renderV], by decide, by decide⟩
    | cons e es =>
      exact ⟨'{', _, by rw [renderV], by decide, by decide⟩

theorem skipWs_renderV (ind : Nat) (v : Value) (l : List Char) :
    skipWs (renderV ind v ++ l) = renderV ind v ++ l := by
  obtain ⟨c, t, heq, hws, _⟩ := renderV_goodHead ind v
  rw [heq, List.cons_append, skipWs_cons_of_not hws]

theorem headNotDigit_cons {c : Char} {l : List Char} (h : c.isDigit = false) :
    headNotDigit (c :: l) := h

theorem parse_render_round : ∀ fuel : Nat,
    (∀ (v : Value) (ind : Nat) (ws rest : List Char), (∀ c ∈ ws, isWsJson c = true) →
      headNotDigit rest → v.size ≤ fuel →
      parseVal fuel (ws ++ (renderV ind v ++ rest)) = some (v, rest)) ∧
    (∀ (x : Value) (xs : List Value) (ind ind2 : Nat) (ws rest : List Char),
      (∀ c ∈ ws, isWsJson c = true) → sizeItems (x :: xs) ≤ fuel →
      parseItems fuel (ws ++ (renderV ind x ++ (renderItems ind xs ++
        ('\n' :: (spaces ind2 ++ (']' :: rest)))))) = some (x :: xs, rest)) ∧
    (∀ (k : String) (w : Value) (es : List (String × Value)) (ind ind2 : Nat)
      (ws rest : List Char), (∀ c ∈ ws, isWsJson c = true) →
      sizeMembers ((k, w) :: es) ≤ fuel →
      parseMembers fuel (ws ++ (renderMember ind (k, w) ++ (renderMembers ind es ++
        ('\n' :: (spaces ind2 ++ ('}' :: rest)))))) = some ((k, w) :: es, rest)) := by
  intro fuel
  induction fuel with
  | zero =>
    refine ⟨?_, ?_, ?_⟩
    · intro v _ _ _ _ _ hsize
      have := Value.size_pos v
      omega
    · intro x xs _ _ _ _ _ hsize
      rw [sizeItems] at hsize
      omega
    · intro k w es _ _ _ _ _ hsize
      rw [sizeMembers] at hsize
      omega
  | succ f ih =>
    obtain ⟨ihV, ihI, ihM⟩ := ih
    refine ⟨?_, ?_, ?_⟩
    · intro v ind ws rest hws hrest hsize
      rw [parseVal, skipWs_append_of_ws hws, skipWs_renderV]
      cases v with
      | null =>
        rw [renderV]
        simp only [List.cons_append, List.nil_append]
        rw [parseValCore, if_pos rfl, parseLitNull]
      | bool b =>
        cases b with
        | true =>
          rw [renderV]
          simp only [List.cons_append, List.nil_append]
          rw [parseValCore, if_neg (by decide), if_pos rfl, parseLitTrue]
        | false =>
          rw [renderV]
          simp only [List.cons_append, List.nil_append]
          rw [parseValCore, if_neg (by decide), if_neg (by decide), if_pos rfl, parseLitFalse]
      | num n =>
        rw [renderV]
        obtain ⟨c, t, hct, hcd⟩ := intChars_head n
        rw [hct]
        simp only [List.cons_append]
        have hnegs : c ≠ 'n' ∧ c ≠ 't' ∧ c ≠ 'f' ∧ c ≠ '"' ∧ c ≠ '{' ∧ c ≠ '[' := by
          rcases hcd with hdig | hdash
          · have h := isDigit_ne_lits hdig
            exact ⟨h.1, h.2.1, h.2.2.1, h.2.2.2.1, h.2.2.2.2.1, h.2.2.2.2.2.1⟩
          · subst hdash
            exact ⟨by decide, by decide, by decide, by decide, by decide, by decide⟩
        rw [parseValCore, if_neg hnegs.1, if_neg hnegs.2.1, if_neg hnegs.2.2.1,
          if_neg hnegs.2.2.2.1, if_neg hnegs.2.2.2.2.1, if_neg hnegs.2.2.2.2.2]
        rw [← List.cons_append, ← hct, parseNum_round hrest, numResult]
      | str s =>
        rw [renderV]
        simp only [List.cons_append, List.append_assoc, List.singleton_append,
          List.nil_append]
        rw [parseValCore, if_neg (by decide), if_neg (by decide), if_neg (by decide),
          if_pos rfl]
        rw [parseStrBody_round, strResult, strMk_data]
      | arr xs =>
        cases xs with
        | nil =>
          rw [renderV]
          simp only [List.cons_append, List.nil_append]
          rw [parseValCore, if_neg (by decide), if_neg (by decide), if_neg (by decide),
            if_neg (by decide), if_neg (by decide), if_pos rfl]
          rw [skipWs_cons_of_not (by decide), parseArrBody, if_pos rfl]
        | cons x xs =>
          rw [renderV]
          simp only [List.cons_append, List.nil_append, List.append_assoc]
          rw [parseValCore, if_neg (by decide), if_neg (by decide), if_neg (by decide),
            if_neg (by decide), if_neg (by decide), if_pos rfl]
          rw [skipWs_ws_cons (by decide), skipWs_append_of_ws (spaces_ws _), skipWs_renderV]
          obtain ⟨c, t, hct, hcw, hcb⟩ := renderV_goodHead (ind + 2) x
          rw [hct]
          simp only [List.cons_append]
          rw [parseArrBody, if_neg hcb]
          rw [← List.cons_append, ← hct]
          have hsx : sizeItems (x :: xs) ≤ f := by
            rw [Value.size] at hsize
            omega
          have h := ihI x xs (ind + 2) ind [] rest (by intro c hc; cases hc) hsx
          simp only [List.nil_append] at h
          rw [h, arrResult]
      | obj kvs =>
        cases kvs with
        | nil =>
          rw [renderV]
          simp only [List.cons_append, List.nil_append]
          rw [parseValCore, if_neg (by decide), if_neg (by decide), if_neg (by decide),
            if_neg (by decide), if_pos rfl]
          rw [skipWs_cons_of_not (by decide), parseObjBody, if_pos rfl]
        | cons e es =>
          obtain ⟨k, w⟩ := e
          rw [renderV]
          simp only [List.cons_append, List.nil_append, List.append_assoc]
          rw [parseValCore, if_neg (by decide), if_neg (by decide), if_neg (by decide),
            if_neg (by decide), if_pos rfl]
          rw [skipWs_ws_cons (by decide), skipWs_append_of_ws (spaces_ws _)]
          rw [renderMember]
          simp only [List.cons_append, List.append_assoc]
          rw [skipWs_cons_of_not (by decide)]
          rw [parseObjBody, if_neg (by decide)]
          have hsm : sizeMembers ((k, w) :: es) ≤ f := by
            rw [Value.size] at hsize
            omega
          have h := ihM k w es (ind + 2) ind [] rest (by intro c hc; cases hc) hsm
          simp only [List.nil_append, renderMember, List.cons_append, List.append_assoc] at h
          rw [h, objResult]
    · intro x xs ind ind2 ws rest hws hsize
      have hrest' : headNotDigit (renderItems ind xs ++
          ('\n' :: (spaces ind2 ++ (']' :: rest)))) := by
        cases xs with
        | nil =>
          rw [renderItems]
          simp only [List.nil_append]
          exact headNotDigit_cons (by decide)
        | cons y ys =>
          rw [renderItems]
          exact headNotDigit_cons (by decide)
      have hsx : x.size ≤ f := by
        rw [sizeItems] at hsize
        omega
      rw [parseItems, ihV x ind ws _ hws hrest' hsx, parseItemsVal]
      cases xs with
      | nil =>
        rw [renderItems]
        simp only [List.nil_append]
        rw [skipWs_ws_cons (by decide), skipWs_append_of_ws (spaces_ws _),
          skipWs_cons_of_not (by decide)]
        rw [parseItemsTail]
      | cons y ys =>
        rw [renderItems]
        simp only [List.cons_append, List.append_assoc]
        rw [skipWs_cons_of_not (by decide)]
        rw [parseItemsTail]
        have hsy : sizeItems (y :: ys) ≤ f := by
          rw [sizeItems] at hsize
          have := Value.size_pos x
          omega
        have h := ihI y ys ind ind2 ('\n' :: spaces ind) rest (by
          intro c hc
          rcases List.mem_cons.mp hc with rfl | hc
          · decide
          · exact spaces_ws _ c hc) hsy
        simp only [List.cons_append, List.append_assoc] at h
        rw [h, consItem]
    · intro k w es ind ind2 ws rest hws hsize
      rw [parseMembers, skipWs_append_of_ws hws]
      rw [renderMember]
      simp only [List.cons_append, List.append_assoc]
      rw [skipWs_cons_of_not (by decide)]
      rw [parseMembersKey, parseStrBody_round, parseMembersSep, strMk_data]
      rw [skipWs_cons_of_not (by decide)]
      rw [parseMembersColon]
      have hrest' : headNotDigit (renderMembers ind es ++
          ('\n' :: (spaces ind2 ++ ('}' :: rest)))) := by
        cases es with
        | nil =>
          rw [renderMembers]
          simp only [List.nil_append]
          exact headNotDigit_cons (by decide)
        | cons e2 es2 =>
          rw [renderMembers]
          exact headNotDigit_cons (by decide)
      have hsw : w.size ≤ f := by
        simp only [sizeMembers] at hsize
        omega
      have h := ihV w ind [' '] _ (by
        intro c hc
        rcases List.mem_cons.mp hc with rfl | hc
        · decide
        · cases hc) hrest' hsw
      simp only [List.singleton_append] at h
      rw [h, parseMembersVal]
      cases es with
      | nil =>
        rw [renderMembers]
        simp only [List.nil_append]
        rw [skipWs_ws_cons (by decide), skipWs_append_of_ws (spaces_ws _),
          skipWs_cons_of_not (by decide)]
        rw [parseMembersTail]
      | cons e2 es2 =>
        obtain ⟨k2, w2⟩ := e2
        rw [renderMembers]
        simp only [List.cons_append, List.append_assoc]
        rw [skipWs_cons_of_not (by decide)]
        rw [parseMembersTail]
        have hs2 : sizeMembers ((k2, w2) :: es2) ≤ f := by
          simp only [sizeMembers] at hsize ⊢
          have := Value.size_pos w
          omega
        have h2 := ihM k2 w2 es2 ind ind2 ('\n' :: spaces ind) rest (by
          intro c hc
          rcases List.mem_cons.mp hc with rfl | hc
          · decide
          · exact spaces_ws _ c hc) hs2
        simp only [List.cons_append, List.append_assoc] at h2
        rw [h2, consMember]

theorem sizeItems_le_renderItems_len : ∀ (xs : List Value) (ind : Nat),
    (∀ x ∈ xs, ∀ i, x.size ≤ (renderV i x).length) →
    sizeItems xs ≤ (renderItems ind xs).length := by
  intro xs
  induction xs with
  | nil =>
    intro ind _
    rw [sizeItems, renderItems]
    simp
  | cons y ys ih =>
    intro ind h
    rw [sizeItems, renderItems]
    simp only [List.length_cons, List.length_append]
    have h1 := h y (by simp) ind
    have h2 := ih ind (fun x hx i => h x (by simp [hx]) i)
    omega

theorem sizeMembers_le_renderMembers_len : ∀ (kvs : List (String × Value)) (ind : Nat),
    (∀ e ∈ kvs, ∀ i, e.2.size ≤ (renderV i e.2).length) →
    sizeMembers kvs ≤ (renderMembers ind kvs).length := by
  intro kvs
  induction kvs with
  | nil =>
    intro ind _
    rw [sizeMembers, renderMembers]
    simp
  | cons e es ih =>
    intro ind h
    rw [sizeMembers, renderMembers, renderMember]
    simp only [List.length_cons, List.length_append]
    have h1 := h e (by simp) ind
    have h2 := ih ind (fun x hx i => h x (by simp [hx]) i)
    omega

theorem size_le_renderV_len : ∀ v : Value, ∀ ind : Nat, v.size ≤ (renderV ind v).length := by
  intro v
  induction v using Value.strongInd with
  | hnull => intro ind; rw [renderV, Value.size]; simp
  | hbool b => intro ind; cases b <;> (rw [renderV, Value.size]; simp)
  | hnum n =>
    intro ind
    rw [renderV, Value.size]
    obtain ⟨c, t, hct, _⟩ := intChars_head n
    rw [hct]
    simp
  | hstr s => intro ind; rw [renderV, Value.size]; simp
  | harr xs ih =>
    intro ind
    cases xs with
    | nil => rw [renderV, Value.size, sizeItems]; simp
    | cons x xs =>
      rw [renderV, Value.size, sizeItems]
      simp only [List.length_cons, List.length_append]
      have h1 := ih x (by simp) (ind + 2)
      have h2 := sizeItems_le_renderItems_len xs (ind + 2) (fun y hy i => ih y (by simp [hy]) i)
      omega
  | hobj kvs ih =>
    intro ind
    cases kvs with
    | nil => rw [renderV, Value.size, sizeMembers]; simp
    | cons e es =>
      rw [renderV, Value.size, sizeMembers, renderMember]
      simp only [List.length_cons, List.length_append]
      have h1 := ih e (by simp) (ind + 2)
      have h2 := sizeMembers_le_renderMembers_len es (ind + 2)
        (fun y hy i => ih y (by simp [hy]) i)
      omega

/-- Parsing the canonical rendering recovers the canonical copy exactly. -/
theorem parseJson_format_json (v : Value) : parseJson (format_json v) = some (canon v) := by
  rw [format_json, parseJson]
  have hdata : (String.mk (renderV 0 (canon v))).data = renderV 0 (canon v) := rfl
  rw [hdata]
  have hlen : (canon v).size ≤ (renderV 0 (canon v)).length + 1 := by
    have := size_le_renderV_len (canon v) 0
    omega
  have h := (parse_render_round ((renderV 0 (canon v)).length + 1)).1 (canon v) 0 [] []
    (by intro c hc; cases hc) trivial hlen
  simp only [List.nil_append, List.append_nil] at h
  rw [h, parseJsonEnd, if_pos (show skipWs ([] : List Char) = [] from rfl)]

/-- Canonical JSON output is the same for Python-equal well-formed values,
whatever their dict insertion orders. -/
theorem format_json_eq_of_vequiv {v w : Value} (hv : wfKeys v) (hw : wfKeys w)
    (hvw : VEquiv v w) : format_json v = format_json w := by
  rw [format_json, format_json, canon_eq_of_vequiv v hv w hw hvw]

/-! CSV formatting (src/src/nbcli/utils/formatters.py). -/

def joinKey (pre k : String) : String := if pre = "" then k else pre ++ "." ++ k

mutual

/-- Core of flatten_payload over an already key-sorted value: the source
walks each dict's keys in sorted order and hands array leaves to
json.dumps(sort_keys=True), modelled by flattening the canonical copy. -/
def flattenPlain : Value → String → List (String × Value)
  | .obj kvs, pre => flattenKvs kvs pre
  | .arr xs, pre => [(pre, .str (String.mk (renderC (.arr xs))))]
  | v, pre => [(pre, v)]

def flattenKvs : List (String × Value) → String → List (String × Value)
  | [], _ => []
  | (k, v) :: rest, pre => flattenPlain v (joinKey pre k) ++ flattenKvs rest pre

end

/-- Embedding of flatten_payload: flatten nested dicts into dotted key
paths; leaves stay scalars except arrays, which become compact JSON text. -/
def flatten_payload (payload : Value) (pre : String) : List (String × Value) :=
  flattenPlain (canon payload) pre

/-- Keys a row contributes to the CSV header set. -/
def keysOfRow : Value → List String
  | .obj kvs => kvs.map Prod.fst
  | _ => ["value"]

/-- Distinct elements of a list (the Python set of header names). -/
def dedupStr : List String → List String
  | [] => []
  | s :: rest => if s ∈ rest then dedupStr rest else s :: dedupStr rest

/-- Python sorted() on strings. -/
def sortStrings (l : List String) : List String :=
  List.insertionSort (fun a b : String => a ≤ b) l

/-- One CSV cell: a missing key becomes None, nested dicts and lists are
serialized as compact sorted JSON text. -/
def cleanCell : Option Value → Value
  | none => .null
  | some (.obj kvs) => .str (dumps_compact (.obj kvs))
  | some (.arr xs) => .str (dumps_compact (.arr xs))
  | some w => w

/-- One cleaned CSV row as csv.DictWriter receives it. -/
def cleanRow (fieldnames : List String) (row : Value) : List (String × Value) :=
  match row with
  | .obj kvs => fieldnames.map (fun k => (k, cleanCell (objGet kvs k)))
  | r => [("value", r)]

/-- Header collection and row cleaning shared by the row-shaped branches of
normalize_csv_rows. -/
def normalizeRows (rows : List Value) : List String × List (List (String × Value)) :=
  if rows.isEmpty then ([], [])
  else
    let fieldnames := sortStrings (dedupStr (rows.foldr (fun r acc => keysOfRow r ++ acc) []))
    (fieldnames, rows.map (cleanRow fieldnames))

/-- The first branch test of normalize_csv_rows:
isinstance(payload, dict) and isinstance(payload.get("results"), list). -/
def resultsArr : Value → Option (List Value)
  | .obj kvs =>
    match objGet kvs "results" with
    | some (.arr rows) => some rows
    | _ => none
  | _ => none

/-- Branch dispatch of normalize_csv_rows, staged on the result of the
dict-with-results-list test so each branch is a top-level pattern. -/
def normalize_csv_core : Value → Option (List Value) → List String × List (List (String × Value))
  | _, some rows => normalizeRows rows
  | .arr rows, none => normalizeRows rows
  | .obj kvs, none =>
    (["key", "value"],
      (flatten_payload (.obj kvs) "").map (fun p => [("key", .str p.1), ("value", p.2)]))
  | p, none => normalizeRows [p]

/-- Embedding of normalize_csv_rows: map payloads into a CSV header list
plus rows. -/
def normalize_csv_rows (payload : Value) : List String × List (List (String × Value)) :=
  normalize_csv_core payload (resultsArr payload)

/-! Pagination scenarios and stepping lemmas. -/

/-- A fail-fast pagination scenario: each page in the chain is served at its
URL with a 2xx JSON response whose body is the page object (whatever query
params are sent), every page carries an array under "results", and each
page's next link points at the following URL (null at the end of the
chain); URLs are nonempty strings so that the while condition holds. -/
def chainedPages (fetch : Transport) : List (String × Value × List Value) → Prop
  | [] => True
  | (url, page, rs) :: rest =>
    url ≠ "" ∧
    (∀ p, ∃ status reason text, fetch (.str url) p =
      .success ⟨true, status, reason, text, .ok page⟩) ∧
    resultsField page = some (.arr rs) ∧
    (match rest with
     | [] => nextField page = .null
     | (url2, _, _) :: _ => nextField page = .str url2) ∧
    chainedPages fetch rest

theorem request_all_go_done (fetch : Transport) (fuel : Nat) (nu : Value) (p : Option Params)
    (results : List Value) (h : truthy nu = false) :
    request_all_go fetch fuel nu p results = (finishCount results, []) := by
  cases fuel with
  | zero => rw [request_all_go, if_neg (by simp [h])]
  | succ f => rw [request_all_go, if_neg (by simp [h])]

theorem request_all_go_chain (fetch : Transport) :
    ∀ (chain : List (String × Value × List Value)) (url : String) (page : Value)
      (rs : List Value) (p : Option Params) (acc : List Value) (fuel : Nat),
      chainedPages fetch ((url, page, rs) :: chain) → chain.length < fuel →
      request_all_go fetch fuel (.str url) p acc =
        (finishCount (acc ++ (rs :: chain.map (fun e => e.2.2)).flatten),
         (.str url, p) :: chain.map (fun e => (.str e.1, (none : Option Params)))) := by
  intro chain
  induction chain with
  | nil =>
    intro url page rs p acc fuel hch hfuel
    obtain ⟨hurl, hfetch, hres, hnext, -⟩ := hch
    have hnext' : nextField page = .null := hnext
    obtain ⟨status, reason, text, hfp⟩ := hfetch p
    cases fuel with
    | zero => exact absurd hfuel (by omega)
    | succ f =>
      have htr : truthy (.str url) = true := by simp [truthy, hurl]
      have hreq : request_with_errors fetch (.str url) p =
          .ok ⟨true, status, reason, text, .ok page⟩ := by
        rw [request_with_errors, hfp]
      rw [request_all_go, if_pos htr, hreq, request_all_resp, request_all_body, hres,
        request_all_results, show extendItems (.arr rs) = some rs from rfl,
        request_all_extend, hnext', request_all_go_done fetch f .null none (acc ++ rs) rfl,
        prependTrace]
      simp

  | cons hd tl ih =>
    obtain ⟨url2, page2, rs2⟩ := hd
    intro url page rs p acc fuel hch hfuel
    obtain ⟨hurl, hfetch, hres, hnext, hch2⟩ := hch
    have hnext' : nextField page = .str url2 := hnext
    obtain ⟨status, reason, text, hfp⟩ := hfetch p
    cases fuel with
    | zero => exact absurd hfuel (by omega)
    | succ f =>
      have htr : truthy (.str url) = true := by simp [truthy, hurl]
      have hreq : request_with_errors fetch (.str url) p =
          .ok ⟨true, status, reason, text, .ok page⟩ := by
        rw [request_with_errors, hfp]
      rw [request_all_go, if_pos htr, hreq, request_all_resp, request_all_body, hres,
        request_all_results, show extendItems (.arr rs) = some rs from rfl,
        request_all_extend, hnext',
        ih url2 page2 rs2 none (acc ++ rs) f hch2 (by simp at hfuel; omega),
        prependTrace]
      simp

theorem request_all_first_page (fetch : Transport) (url : String) (p : Option Params)
    (f status : Nat) (reason text : String) (payload : Value) (hurl : url ≠ "")
    (hf : fetch (.str url) p = .success ⟨true, status, reason, text, .ok payload⟩) :
    request_all fetch (f + 1) url p =
      prependTrace (.str url, p)
        (request_all_results fetch f [] payload (resultsField payload)) := by
  have hreq : request_with_errors fetch (.str url) p =
      .ok ⟨true, status, reason, text, .ok payload⟩ := by
    rw [request_with_errors, hf]
  rw [request_all, request_all_go, if_pos (by simp [truthy, hurl]), hreq, request_all_resp,
    request_all_body]

theorem request_all_safe_first (fetch : Transport) (url : String) (f : Nat) (hurl : url ≠ "") :
    request_all_safe fetch (f + 1) url =
      request_all_safe_resp fetch f [] (request_with_errors fetch (.str url) none) := by
  rw [request_all_safe, request_all_safe_go, if_pos (by simp [truthy, hurl])]

/-! Theorems settling the claims. -/

/-- C1: for every chain of N list-shaped pages linked by next URLs, the
fail-fast aggregator request_all returns an Object whose count equals the
sum of the lengths of the pages' results arrays and whose results is the
concatenation of those arrays in page order; its transport trace shows the
caller-supplied query params sent only with the first request, with no
params on any subsequent request. -/
theorem nbcli_c1_request_all (fetch : Transport) (params : Option Params) (url : String)
    (page : Value) (rs : List Value) (chain : List (String × Value × List Value)) (fuel : Nat)
    (hch : chainedPages fetch ((url, page, rs) :: chain)) (hfuel : chain.length < fuel) :
    request_all fetch fuel url params =
      (.value (.obj
        [("count", .num (((rs :: chain.map (fun e => e.2.2)).map List.length).sum : Int)),
         ("results", .arr (rs :: chain.map (fun e => e.2.2)).flatten)]),
       (.str url, params) :: chain.map (fun e => (.str e.1, (none : Option Params)))) := by
  rw [request_all, request_all_go_chain fetch chain url page rs params [] fuel hch hfuel]
  rw [finishCount, List.nil_append, List.length_flatten]

def c1page1 : Value :=
  .obj [("count", .num 3), ("next", .str "u2"), ("results", .arr [.num 1, .num 2])]

def c1page2 : Value := .obj [("count", .num 3), ("next", .null), ("results", .arr [.num 3])]

def c1srv : Transport := fun u _ =>
  match u with
  | .str "u1" => .success ⟨true, 200, "OK", "", .ok c1page1⟩
  | .str "u2" => .success ⟨true, 200, "OK", "", .ok c1page2⟩
  | _ => .timeout

theorem nbcli_c1_request_all_witness :
    chainedPages c1srv [("u1", c1page1, [.num 1, .num 2]), ("u2", c1page2, [.num 3])] ∧
    (1 : Nat) < 5 ∧
    request_all c1srv 5 "u1" (some [("q", .single "x")]) =
      (.value (.obj [("count", .num 3), ("results", .arr [.num 1, .num 2, .num 3])]),
       [(.str "u1", some [("q", .single "x")]), (.str "u2", none)]) := by
  have hch : chainedPages c1srv [("u1", c1page1, [.num 1, .num 2]), ("u2", c1page2, [.num 3])] :=
    ⟨by decide, fun p => ⟨200, "OK", "", rfl⟩, rfl, rfl,
     by decide, fun p => ⟨200, "OK", "", rfl⟩, rfl, rfl, trivial⟩
  refine ⟨hch, by omega, ?_⟩
  rw [nbcli_c1_request_all c1srv (some [("q", .single "x")]) "u1" c1page1 [.num 1, .num 2]
    [("u2", c1page2, [.num 3])] 5 hch (by simp)]
  rfl

/-- C2: the error-capturing aggregator request_all_safe converts an HTTP
failure (non-2xx first page) into the ErrorResult object {error, status}
and returns it without terminating, but a transport failure such as a
timeout still terminates the process with exit code 3: the second conjunct
evaluates the code at the failing input the claim covers. -/
theorem nbcli_c2_request_all_safe :
    (∀ (fetch : Transport) (url : String) (f status : Nat) (reason text : String)
      (body : Except String Value), url ≠ "" →
      fetch (.str url) none = .success ⟨false, status, reason, text, body⟩ →
      request_all_safe fetch (f + 1) url =
        .value (.obj [("error", .str text), ("status", .num status)])) ∧
    (∀ (fetch : Transport) (url : String) (f : Nat), url ≠ "" →
      fetch (.str url) none = .timeout →
      request_all_safe fetch (f + 1) url = .exit 3) := by
  constructor
  · intro fetch url f status reason text body hurl hf
    have hreq : request_with_errors fetch (.str url) none =
        .ok ⟨false, status, reason, text, body⟩ := by
      rw [request_with_errors, hf]
    rw [request_all_safe_first fetch url f hurl, hreq, request_all_safe_resp, errorResult]
  · intro fetch url f hurl hf
    have hreq : request_with_errors fetch (.str url) none = .error 3 := by
      rw [request_with_errors, hf]
    rw [request_all_safe_first fetch url f hurl, hreq, request_all_safe_resp]

def c2srvBad : Transport := fun _ _ => .success ⟨false, 404, "Not Found", "nope", .error "x"⟩

def c2srvTimeout : Transport := fun _ _ => .timeout

theorem nbcli_c2_request_all_safe_witness :
    ("u" : String) ≠ "" ∧
    c2srvBad (.str "u") none = .success ⟨false, 404, "Not Found", "nope", .error "x"⟩ ∧
    request_all_safe c2srvBad 1 "u" =
      .value (.obj [("error", .str "nope"), ("status", .num 404)]) ∧
    c2srvTimeout (.str "u") none = .timeout ∧
    request_all_safe c2srvTimeout 1 "u" = .exit 3 := by
  refine ⟨by decide, rfl, ?_, rfl, ?_⟩
  · exact nbcli_c2_request_all_safe.1 c2srvBad "u" 0 404 "Not Found" "nope" (.error "x")
      (by decide) rfl
  · exact nbcli_c2_request_all_safe.2 c2srvTimeout "u" 0 (by decide) rfl

/-- C3 counterexample: the claim omits the whitespace trimming the source
performs first, so on the selector " " the code returns the value unchanged
while the claimed fold would fail looking up the key " ". -/
theorem nbcli_c3_counterexample :
    extract_path_value (.obj [("a", .num 1)]) (some " ") = .ok (.obj [("a", .num 1)]) ∧
    select_claimed (.obj [("a", .num 1)]) (some " ") = .error " " := ⟨rfl, rfl⟩

/-- C3 (amended): after trimming surrounding whitespace, the selector
behaves exactly as claimed: a null selector or one empty after stripping an
optional leading dot returns the value unchanged, otherwise the selector is
split on dots and folded left (present key at objects, in-range all-digit
index at arrays, failure at scalars, stopping at the first failure);
includes the two worked examples. -/
theorem nbcli_c3_select :
    (∀ v, extract_path_value v none = .ok v) ∧
    (∀ v s, extract_path_value v (some s) = select_claimed v (some (pyStrip s))) ∧
    extract_path_value (.obj [("results", .arr [.obj [("name", .str "r1")],
      .obj [("name", .str "r2")]])]) (some ".results.1.name") = .ok (.str "r2") ∧
    extract_path_value (.obj [("results", .arr [.obj [("name", .str "r1")],
      .obj [("name", .str "r2")]])]) (some ".results.5.name") = .error "5" :=
  ⟨fun _ => rfl, fun _ _ => rfl, rfl, rfl⟩

def c4srv : Transport := fun _ _ =>
  .success ⟨true, 200, "OK", "", .ok (.obj [("results", .str "ab")])⟩

/-- C4 counterexample: a first page {"results": "ab"} is not an Object
containing a results array, yet the aggregator does not return it verbatim:
list.extend iterates the string and the code returns the two-character
count envelope instead. -/
theorem nbcli_c4_counterexample :
    (request_all c4srv 1 "u" none).1 =
      .value (.obj [("count", .num 2), ("results", .arr [.str "a", .str "b"])]) ∧
    (request_all c4srv 1 "u" none).1 ≠ .value (.obj [("results", .str "ab")]) := by
  have h1 : request_all c4srv 1 "u" none =
      (finishCount [.str "a", .str "b"], [(.str "u", none)]) := by
    rw [show (1 : Nat) = 0 + 1 from rfl]
    rw [request_all_first_page c4srv "u" none 0 200 "OK" ""
      (.obj [("results", .str "ab")]) (by decide) rfl]
    rw [show resultsField (.obj [("results", .str "ab")]) = some (.str "ab") from rfl]
    rw [request_all_results, show extendItems (.str "ab") = some [.str "a", .str "b"] from rfl]
    rw [request_all_extend, show nextField (.obj [("results", .str "ab")]) = .null from rfl]
    simp only [List.nil_append]
    rw [request_all_go_done c4srv 0 .null none [.str "a", .str "b"] rfl, prependTrace]
  rw [h1]
  refine ⟨rfl, ?_⟩
  intro h
  simp [finishCount] at h

/-- C4 (amended): pagination is attempted exactly when the first page is an
Object with a "results" key present, whatever the type of its value; a
first-page Value that is not an Object or lacks the key is returned
verbatim, with no second request issued. -/
theorem nbcli_c4_request_all_verbatim (fetch : Transport) (url : String) (p : Option Params)
    (f status : Nat) (reason text : String) (payload : Value) (hurl : url ≠ "")
    (hf : fetch (.str url) p = .success ⟨true, status, reason, text, .ok payload⟩)
    (hres : resultsField payload = none) :
    request_all fetch (f + 1) url p = (.value payload, [(.str url, p)]) := by
  rw [request_all_first_page fetch url p f status reason text payload hurl hf, hres,
    request_all_results, prependTrace]

def c4vsrv : Transport := fun _ _ =>
  .success ⟨true, 200, "OK", "", .ok (.obj [("count", .num 0)])⟩

theorem nbcli_c4_request_all_verbatim_witness :
    ("u" : String) ≠ "" ∧
    c4vsrv (.str "u") none = .success ⟨true, 200, "OK", "", .ok (.obj [("count", .num 0)])⟩ ∧
    resultsField (.obj [("count", .num 0)]) = none ∧
    request_all c4vsrv 1 "u" none =
      (.value (.obj [("count", .num 0)]), [(.str "u", none)]) := by
  refine ⟨by decide, rfl, rfl, ?_⟩
  exact nbcli_c4_request_all_verbatim c4vsrv "u" none 0 200 "OK" ""
    (.obj [("count", .num 0)]) (by decide) rfl rfl

/-- C5 counterexample: path normalization never lowercases, so the reserved
status target is not recognized when the supplied path differs in case. -/
theorem nbcli_c5_counterexample :
    is_status_path "Status" = false ∧ normalize_path "Status" = "Status" ∧
    is_status_path "status" = true := ⟨rfl, rfl, rfl⟩

/-- C5 (amended): path-token normalization trims surrounding whitespace,
strips all leading slashes, strips one leading "api/" segment, strips all
trailing slashes, and is case-sensitive: the status and client-config
reserved targets are recognized only when the remaining token matches in
exact (lower) case. -/
theorem nbcli_c5_normalize_path :
    normalize_path " /api/status/ " = "status" ∧
    normalize_path "//api/x//" = "x" ∧
    normalize_path "api/api/y" = "api/y" ∧
    is_status_path "/api/status/" = true ∧
    is_status_path "API/status" = false ∧
    is_cli_config_path "cli config" = true ∧
    is_cli_config_path "Cli Config" = false := ⟨rfl, rfl, rfl, rfl, rfl, rfl, rfl⟩

/-- C6: build_url returns the path unchanged when it already carries an
http:// or https:// scheme; otherwise it joins the base with all trailing
slashes stripped and the path with all leading slashes stripped, inserting
an "api/" segment between them unless the stripped path already starts
with "api/". -/
theorem nbcli_c6_build_url :
    (∀ base p : String, (pyStarts "http://" p = true ∨ pyStarts "https://" p = true) →
      build_url base p = p) ∧
    (∀ base p : String, pyStarts "http://" p = false → pyStarts "https://" p = false →
      ((pyStarts "api/" (lstripSlash p) = true →
        build_url base p = rstripSlash base ++ "/" ++ lstripSlash p) ∧
       (pyStarts "api/" (lstripSlash p) = false →
        build_url base p = rstripSlash base ++ "/api/" ++ lstripSlash p))) := by
  constructor
  · intro base p h
    rcases h with h | h <;> simp [build_url, h]
  · intro base p h1 h2
    constructor
    · intro h3
      simp [build_url, h1, h2, h3]
    · intro h3
      simp [build_url, h1, h2, h3]

theorem nbcli_c6_build_url_witness :
    pyStarts "http://" "/dcim/devices" = false ∧ pyStarts "https://" "/dcim/devices" = false ∧
    pyStarts "api/" (lstripSlash "/dcim/devices") = false ∧
    build_url "https://h/" "/dcim/devices" =
      rstripSlash "https://h/" ++ "/api/" ++ lstripSlash "/dcim/devices" := by
  refine ⟨rfl, rfl, rfl, ?_⟩
  exact (nbcli_c6_build_url.2 "https://h/" "/dcim/devices" rfl rfl).2 rfl

/-- C7: canonical JSON rendering is deterministic and independent of dict
insertion order at every level (Python-equal well-formed values render to
the identical string), and parsing the rendered text yields a Value that is
Python-equal to the original. -/
theorem nbcli_c7_format_json (v : Value) :
    (∀ w, wfKeys v → wfKeys w → VEquiv v w → format_json v = format_json w) ∧
    (∃ u, parseJson (format_json v) = some u ∧ VEquiv u v) := by
  constructor
  · intro w hv hw hvw
    exact format_json_eq_of_vequiv hv hw hvw
  · exact ⟨canon v, parseJson_format_json v, vequiv_canon v⟩

def c7v : Value := .obj [("b", .num 1), ("a", .obj [("d", .null), ("c", .bool true)])]

def c7w : Value := .obj [("a", .obj [("c", .bool true), ("d", .null)]), ("b", .num 1)]

theorem nbcli_c7_format_json_witness :
    wfKeys c7v ∧ wfKeys c7w ∧ VEquiv c7v c7w ∧ format_json c7v = format_json c7w ∧
    (∃ u, parseJson (format_json c7v) = some u ∧ VEquiv u c7v) := by
  have hv : wfKeys c7v := by
    simp [c7v, wfKeys, wfKeysMembers]
  have hw : wfKeys c7w := by
    simp [c7w, wfKeys, wfKeysMembers]
  have hvw : VEquiv c7v c7w := by
    refine @VEquiv.obj _ [("a", .obj [("d", .null), ("c", .bool true)]), ("b", .num 1)] _
      (List.Perm.swap _ _ _) rfl ?_
    refine List.Forall₂.cons ?_ (List.Forall₂.cons (VEquiv.num 1) List.Forall₂.nil)
    refine @VEquiv.obj _ [("c", .bool true), ("d", .null)] _ (List.Perm.swap _ _ _) rfl ?_
    exact List.Forall₂.cons (VEquiv.bool true) (List.Forall₂.cons VEquiv.null List.Forall₂.nil)
  exact ⟨hv, hw, hvw, (nbcli_c7_format_json c7v).1 c7w hv hw hvw, (nbcli_c7_format_json c7v).2⟩

/-- C8: CSV rendering of an Object without an Array-valued results field
flattens it recursively into dotted key/value pairs under exactly the two
columns key and value; array leaves become compact sorted JSON text rather
than being flattened further; includes the worked examples. -/
theorem nbcli_c8_normalize_csv_rows :
    (∀ kvs : List (String × Value), resultsArr (.obj kvs) = none →
      normalize_csv_rows (.obj kvs) =
        (["key", "value"],
          (flatten_payload (.obj kvs) "").map (fun p => [("key", .str p.1), ("value", p.2)]))) ∧
    (∀ (xs : List Value) (pre : String),
      flattenPlain (.arr xs) pre = [(pre, .str (String.mk (renderC (.arr xs))))]) ∧
    normalize_csv_rows (.obj [("x", .obj [("y", .num 1)])]) =
      (["key", "value"], [[("key", .str "x.y"), ("value", .num 1)]]) ∧
    normalize_csv_rows (.obj [("a", .arr [.num 2, .num 1])]) =
      (["key", "value"], [[("key", .str "a"), ("value", .str "[2, 1]")]]) := by
  refine ⟨?_, ?_, ?_, ?_⟩
  · intro kvs h
    rw [normalize_csv_rows, h]
    rfl
  · intro xs pre
    rw [flattenPlain]
  · simp [normalize_csv_rows, resultsArr, objGet, normalize_csv_core, flatten_payload,
      canon, canonMembers, canonItems, sortByKey, List.insertionSort, List.orderedInsert,
      flattenPlain, flattenKvs, joinKey]
  · simp [normalize_csv_rows, resultsArr, objGet, normalize_csv_core, flatten_payload,
      canon, canonMembers, canonItems, sortByKey, List.insertionSort, List.orderedInsert,
      flattenPlain, flattenKvs, joinKey, renderC, renderCItems, intChars, natChars,
      natCharsAux]

theorem nbcli_c8_normalize_csv_rows_witness :
    resultsArr (.obj [("x", .num 5), ("results", .num 7)]) = none ∧
    normalize_csv_rows (.obj [("x", .num 5), ("results", .num 7)]) =
      (["key", "value"],
        (flatten_payload (.obj [("x", .num 5), ("results", .num 7)]) "").map
          (fun p => [("key", .str p.1), ("value", p.2)])) :=
  ⟨rfl, nbcli_c8_normalize_csv_rows.1 _ rfl⟩

/-- C9: masking a nonempty token keeps the last four characters and
replaces the rest with stars when the token is longer than four characters,
and replaces every character with a star when the length is at most four;
includes the two worked examples. -/
theorem nbcli_c9_mask_token :
    (∀ t : String, t ≠ "" →
      (t.data.length ≤ 4 →
        mask_token t = some (String.mk (List.replicate t.data.length (Char.ofNat 42)))) ∧
      (4 < t.data.length →
        mask_token t = some (String.mk (List.replicate (t.data.length - 4) (Char.ofNat 42) ++
          t.data.drop (t.data.length - 4))))) ∧
    mask_token "abcd1234" = some "****1234" ∧ mask_token "abc" = some "***" := by
  refine ⟨?_, rfl, rfl⟩
  intro t ht
  constructor
  · intro hlen
    rw [mask_token, if_neg ht, if_pos hlen]
  · intro hlen
    rw [mask_token, if_neg ht, if_neg (by omega)]

theorem nbcli_c9_mask_token_witness :
    ("abcde" : String) ≠ "" ∧ 4 < ("abcde" : String).data.length ∧
    mask_token "abcde" =
      some (String.mk (List.replicate (("abcde" : String).data.length - 4) (Char.ofNat 42) ++
        ("abcde" : String).data.drop (("abcde" : String).data.length - 4))) := by
  refine ⟨by decide, by decide, ?_⟩
  exact (nbcli_c9_mask_token.1 "abcde" (by decide)).2 (by decide)

theorem splitAtChar_append {sep : Char} : ∀ (a : List Char), sep ∉ a → ∀ b,
    splitAtChar sep (a ++ sep :: b) = some (a, b) := by
  intro a
  induction a with
  | nil =>
    intro _ b
    rw [List.nil_append, splitAtChar, if_pos rfl]
  | cons c cs ih =>
    intro h b
    have hc : ¬(c = sep) := by
      intro he
      subst he
      exact h (List.mem_cons_self c cs)
    rw [List.cons_append, splitAtChar, if_neg hc, ih (fun hm => h (List.mem_cons_of_mem c hm)) b]

theorem splitAtChar_none {sep : Char} : ∀ (cs : List Char), sep ∉ cs →
    splitAtChar sep cs = none := by
  intro cs
  induction cs with
  | nil => intro _; rfl
  | cons c t ih =>
    intro h
    have hc : ¬(c = sep) := by
      intro he
      subst he
      exact h (List.mem_cons_self c t)
    rw [splitAtChar, if_neg hc, ih (fun hm => h (List.mem_cons_of_mem c hm))]

theorem parse_kv_list_go_error : ∀ (items : List String) (acc : Params),
    (∃ item ∈ items, '=' ∉ item.data) → ∃ msg, parse_kv_list_go acc items = .error msg := by
  intro items
  induction items with
  | nil =>
    intro acc h
    obtain ⟨item, hm, -⟩ := h
    cases hm
  | cons i rest ih =>
    intro acc h
    obtain ⟨item, hm, hne⟩ := h
    by_cases hsp : splitAtChar '=' i.data = none
    · refine ⟨i, ?_⟩
      rw [parse_kv_list_go, hsp]
    · obtain ⟨p, hp⟩ := Option.ne_none_iff_exists'.mp hsp
      obtain ⟨k0, v0⟩ := p
      rw [parse_kv_list_go, hp]
      rcases List.mem_cons.mp hm with rfl | hm'
      · exact absurd (splitAtChar_none _ hne) hsp
      · exact ih (addParam acc (String.mk k0) (String.mk v0)) ⟨item, hm', hne⟩

/-- C10: parse_kv_list splits every key=value item on the first "=" only,
so a value may itself contain "=" characters; parsing ["a=b=c"] yields the
mapping a to "b=c", and an item containing no "=" at all is a usage error
(the CLI prints a message naming the item and exits with code 2). -/
theorem nbcli_c10_parse_kv_list :
    (∀ (kcs vcs : List Char), '=' ∉ kcs →
      parse_kv_list [String.mk (kcs ++ '=' :: vcs)] =
        .ok [(String.mk kcs, .single (String.mk vcs))]) ∧
    parse_kv_list ["a=b=c"] = .ok [("a", .single "b=c")] ∧
    (∀ (items : List String) (item : String), item ∈ items → '=' ∉ item.data →
      ∃ msg, parse_kv_list items = .error msg) := by
  refine ⟨?_, rfl, ?_⟩
  · intro kcs vcs h
    rw [parse_kv_list, parse_kv_list_go,
      show (String.mk (kcs ++ '=' :: vcs)).data = kcs ++ '=' :: vcs from rfl,
      splitAtChar_append kcs h vcs]
    rfl
  · intro items item hm hne
    exact parse_kv_list_go_error items [] ⟨item, hm, hne⟩

theorem nbcli_c10_parse_kv_list_witness :
    '=' ∉ ("limit" : String).data ∧
    parse_kv_list [String.mk (("limit" : String).data ++ '=' :: ("a=b" : String).data)] =
      .ok [(String.mk ("limit" : String).data, .single (String.mk ("a=b" : String).data))] ∧
    ("oops" : String) ∈ ["x=1", "oops"] ∧ '=' ∉ ("oops" : String).data ∧
    ∃ msg, parse_kv_list ["x=1", "oops"] = .error msg := by
  refine ⟨by decide, nbcli_c10_parse_kv_list.1 _ _ (by decide), by decide, by decide, ?_⟩
  exact nbcli_c10_parse_kv_list.2.2 ["x=1", "oops"] "oops" (by decide) (by decide)
